import Mathlib

/-!
Verification of the dupefiles-go duplicate-file finder against its
natural-language specification.

The development shallowly embeds the Go sources under `src/core` (FileUtils.go,
scanner.go, app.go) in Lean:

* a filesystem snapshot is an association list from path to byte content and
  modification time; Go byte values are modelled as `Nat`, only equality of
  bytes matters to the embedded code;
* the concurrent worker pools of the scanner are collapsed to deterministic
  sequential folds; Go's randomized map-iteration order is represented by the
  order of the input lists, and randomness (`rand.Int63n(fileSize)` draws of
  the sampled comparison) is an explicit function parameter `rng`, `rng i %
  fileSize` being the i-th draw;
* the SQLite store is modelled by explicit table lists, and fallible
  transactions by boolean oracles saying whether begin/commit succeeds;
* the Go standard library digests (crypto/md5, crypto/sha256) and path helpers
  (filepath.Clean, filepath.Ext, filepath.Base, filepath.Match) are external
  collaborators and enter the model as function parameters.
-/

set_option maxHeartbeats 1000000

namespace DupeFiles

/-- File content: a list of byte values. -/
abbrev Content := List Nat

/-- A filesystem snapshot: path, byte content and modification time (Unix
seconds) for every existing regular file.  `os.Open`/`os.Stat` succeed exactly
on the listed paths. -/
structure Fs where
  entries : List (String × Content × Int)
deriving Repr, DecidableEq

/-- Reading a file's bytes (`os.Open` + reading to EOF). -/
def Fs.read (fs : Fs) (p : String) : Option Content :=
  (fs.entries.find? (fun e => e.1 == p)).map (fun e => e.2.1)

/-- `os.Stat`: size (byte count) and modification time of an existing file. -/
def Fs.stat (fs : Fs) (p : String) : Option (Int × Int) :=
  (fs.entries.find? (fun e => e.1 == p)).map (fun e => ((e.2.1.length : Int), e.2.2))

/-- FileItem from part_004 / core: one catalog record.  Go's
`sql.NullString` hash column is the sum type `Option String`. -/
structure FileItem where
  guid : String
  path : String
  extension : String
  size : Int
  modTime : Int
  hash : Option String
  humanizedSize : String
deriving Repr, DecidableEq

/- ---------------------------------------------------------------------------
FileUtils.go
--------------------------------------------------------------------------- -/

/-- FileUtils.go line 16: `const SizeThreshold = 2 * 1024 * 1024 * 1024`. -/
def SizeThreshold : Int := 2 * 1024 * 1024 * 1024

/-- The two digest algorithms of FileUtils.go. -/
inductive HashAlg
  | md5
  | sha256
deriving Repr, DecidableEq

/-- The algorithm-selection logic of `CalculateFileHash` (FileUtils.go lines
18-24): `if fileSize > SizeThreshold` choose SHA-256, else MD5. -/
def calculateFileHashAlg (fileSize : Int) : HashAlg :=
  if fileSize > SizeThreshold then HashAlg.sha256 else HashAlg.md5

/-- FileUtils.go line 71: `const chunkSize = 64 * 1024`. -/
def chunkSize : Nat := 64 * 1024

/-- The read-and-compare loop of `CompareFilesBinary` (FileUtils.go lines
75-94).  One `Read` of the Go loop returns `min chunkSize remaining` bytes and
reports `io.EOF` exactly when no bytes remain; the loop then compares chunk
lengths, checks the double-EOF exit, compares the chunks' bytes and iterates on
the remainders. -/
def compareFilesBinaryLoop (a b : Content) : Bool :=
  if _h1 : min chunkSize a.length ≠ min chunkSize b.length then false
  else if _h2 : a.length = 0 ∧ b.length = 0 then true
  else if a.take chunkSize ≠ b.take chunkSize then false
  else compareFilesBinaryLoop (a.drop chunkSize) (b.drop chunkSize)
termination_by a.length
decreasing_by
  simp only [List.length_drop]
  simp only [chunkSize] at *
  omega

/-- `CompareFilesBinary` (FileUtils.go lines 58-95): full byte-exact streaming
comparison; `none` models the I/O error return when a file cannot be opened. -/
def CompareFilesBinary (fs : Fs) (path1 path2 : String) : Option Bool :=
  match fs.read path1 with
  | none => none
  | some a =>
    match fs.read path2 with
    | none => none
    | some b => some (compareFilesBinaryLoop a b)

/-- The active `compareFilesBinarySampleSize` (FileUtils.go lines 97-169).
Both files are opened and stat'ed (`none` on failure); unequal sizes give
`some false`; empty files give `some true`; otherwise the sample size is
clamped to the file size and that many random positions are drawn uniformly
from `[0, fileSize)` (`rng i % fileSize` models the i-th `rng.Int63n(fileSize)`
draw); single bytes are compared at each drawn position.  `ReadAt` at a
position below the file size cannot fail.  Note the function never falls back
to `CompareFilesBinary`: a sample size of 0 draws no positions at all. -/
def compareFilesBinarySampleSize (fs : Fs) (filePathA filePathB : String)
    (sampleSize : Nat) (rng : Nat → Nat) : Option Bool :=
  match fs.read filePathA with
  | none => none
  | some a =>
    match fs.read filePathB with
    | none => none
    | some b =>
      if a.length ≠ b.length then some false
      else if a.length = 0 then some true
      else
        let k := if sampleSize > a.length then a.length else sampleSize
        let positions := (List.range k).map (fun i => rng i % a.length)
        some (positions.all (fun pos => a.getD pos 0 == b.getD pos 0))

/- ---------------------------------------------------------------------------
scanner.go: the three-stage pipeline.

Concurrency is collapsed to sequential folds: worker results arrive in job
order, and hash groups are verified in bucket order.  The claims under
scrutiny are about group membership, which the Go code does not order anyway
(results are drained from an unordered channel).
--------------------------------------------------------------------------- -/

/-- ResultList (scanner.go lines 13-16): hash plus the confirmed guids. -/
structure ResultList where
  HashSum : String
  FileGuids : List String
deriving Repr, DecidableEq

/-- Appending a file to the group of its key inside an association list of
groups, creating the group on first use.  This is `m[k] = append(m[k], f)` on a
Go map, with map iteration order fixed to insertion order. -/
def insertGroup {α : Type} [DecidableEq α] (key : α) (f : FileItem) :
    List (α × List FileItem) → List (α × List FileItem)
  | [] => [(key, [f])]
  | (k, l) :: rest =>
    if k = key then (k, l ++ [f]) :: rest else (k, l) :: insertGroup key f rest

/-- `ScanBySize` (scanner.go lines 27-34): partition the catalog records by
exact size.  The records arrive in the order of the in-memory map iteration,
modelled by the input list order. -/
def scanBySize (files : List FileItem) : List (Int × List FileItem) :=
  files.foldl (fun gs f => insertGroup f.size f gs) []

/-- Setting the in-memory hash of a record (`res.file.Hash = sql.NullString{...}`,
scanner.go line 188). -/
def withHash (f : FileItem) (h : String) : FileItem := { f with hash := some h }

/-- One hashing job of the stage-2 worker pool (scanner.go lines 156-171).
`hashFn size content` stands for `CalculateFileHash(path, size)` applied to the
bytes the digest streams; `none` is the per-item hashing failure, which is
logged and excludes the file from this scan.  The worker reuses a non-empty
valid hash if present (dead in practice: jobs are records without a valid
hash). -/
def hashJob (hashFn : Int → Content → String) (fs : Fs) (f : FileItem) :
    Option (String × FileItem) :=
  match f.hash with
  | some h =>
    if h = "" then (fs.read f.path).map (fun c => (hashFn f.size c, withHash f (hashFn f.size c)))
    else some (h, withHash f h)
  | none => (fs.read f.path).map (fun c => (hashFn f.size c, withHash f (hashFn f.size c)))

/-- Stage-2 treatment of one size group (scanner.go lines 114-194): groups of
fewer than two records are skipped; records with a valid hash are routed
directly into their hash bucket; the rest are hashed by the worker pool, the
successful results are routed into buckets and queued as `(guid, hash)` updates
for the single batched UPDATE transaction. -/
def processSizeGroup (hashFn : Int → Content → String) (fs : Fs)
    (acc : List (String × List FileItem) × List (String × String))
    (group : List FileItem) :
    List (String × List FileItem) × List (String × String) :=
  if group.length < 2 then acc
  else
    let cached := group.filter (fun f => f.hash.isSome)
    let toHash := group.filter (fun f => ! f.hash.isSome)
    let groups1 := cached.foldl (fun gs f => insertGroup (f.hash.getD "") f gs) acc.1
    let hashed := toHash.filterMap (hashJob hashFn fs)
    let groups2 := hashed.foldl (fun gs p => insertGroup p.1 p.2 gs) groups1
    (groups2, acc.2 ++ hashed.map (fun p => (p.2.guid, p.1)))

/-- `calculateHashGroups` (scanner.go lines 106-198): fold stage 2 over the
size groups; returns the hash buckets and the pending DB hash updates. -/
def calculateHashGroups (hashFn : Int → Content → String) (fs : Fs)
    (sizeGroups : List (Int × List FileItem)) :
    List (String × List FileItem) × List (String × String) :=
  sizeGroups.foldl (fun acc g => processSizeGroup hashFn fs acc g.2) ([], [])

/-- `findDuplicatesInHashGroup` (scanner.go lines 249-307): the first bucket
member is the anchor; every other member is compared against the anchor with
`compareFilesBinarySampleSize`; comparison errors are logged and skipped;
members reported identical join the anchor's group, which is returned when it
has at least two members.  `rng p` supplies the random draws of the comparison
against the member with path `p`. -/
def findDuplicatesInHashGroup (fs : Fs) (sampleSize : Nat)
    (rng : String → Nat → Nat) (hashKey : String) (files : List FileItem) :
    Option ResultList :=
  if files.length < 2 then none
  else
    match files with
    | [] => none
    | anchor :: rest =>
      let dups := anchor :: rest.filter (fun f =>
        compareFilesBinarySampleSize fs anchor.path f.path sampleSize (rng f.path) == some true)
      if 2 ≤ dups.length then some ⟨hashKey, dups.map (fun f => f.guid)⟩ else none

/-- `ScanForDuplicates` (scanner.go lines 36-91), results and pending hash
updates: stage 1, stage 2, then stage 3 over every bucket with at least two
members.  Result order is the bucket order (the Go code aggregates from an
unordered channel). -/
def scanForDuplicates (hashFn : Int → Content → String) (fs : Fs)
    (sampleSize : Nat) (rng : String → Nat → Nat) (files : List FileItem) :
    List ResultList × List (String × String) :=
  let sizeGroups := scanBySize files
  let hg := calculateHashGroups hashFn fs sizeGroups
  (hg.1.filterMap (fun g =>
    if g.2.length < 2 then none
    else findDuplicatesInHashGroup fs sampleSize rng g.1 g.2), hg.2)

/-- The fate of one record's in-memory hash during a scan: stage 2 workers
write the computed hash onto the shared record objects (`res.file.Hash = ...`,
scanner.go line 188) regardless of whether the batched DB update later
succeeds, so exactly the records that sit in a size group of at least two
members, carry no valid hash and can be read get the computed hash. -/
def applyOne (hashFn : Int → Content → String) (fs : Fs)
    (files : List FileItem) (f : FileItem) : FileItem :=
  if 2 ≤ files.countP (fun g => g.size == f.size) ∧ f.hash = none then
    match fs.read f.path with
    | some c => withHash f (hashFn f.size c)
    | none => f
  else f

/-- The in-memory catalog after a scan: every record updated by `applyOne`. -/
def applyScanHashes (hashFn : Int → Content → String) (fs : Fs)
    (files : List FileItem) : List FileItem :=
  files.map (applyOne hashFn fs files)

/-- Whether the durable store lets the two batched scan transactions (the
stage-2 hash UPDATE batch and the per-bucket duplicate-membership INSERT
batch) begin, prepare and commit. -/
structure DbOracle where
  hashTxOk : Bool
  dupTxOk : Bool
deriving Repr, DecidableEq

/-- `updateHashesInIndex` (scanner.go lines 212-247): no-op on an empty batch,
otherwise one transaction updating every hash; returns the error of a failed
begin/prepare/commit. -/
def updateHashesInIndex (oracle : DbOracle) (hashesToUpdate : List (String × String)) :
    Except String Nat :=
  if hashesToUpdate = [] then Except.ok 0
  else if oracle.hashTxOk then Except.ok hashesToUpdate.length
  else Except.error "failed to commit transaction"

/-- `addDuplicatesToIndex` (scanner.go lines 309-339): no-op below two guids,
otherwise one transaction upserting every membership row. -/
def addDuplicatesToIndex (oracle : DbOracle) (resultList : ResultList) :
    Except String Unit :=
  if resultList.FileGuids.length < 2 then Except.ok ()
  else if oracle.dupTxOk then Except.ok ()
  else Except.error "failed to begin transaction"

/-- `ScanByHash` (scanner.go lines 93-104) with its error plumbing: a failure
of `updateHashesInIndex` is printed as a warning and dropped — the hash groups
are returned with a nil error. -/
def scanByHashE (oracle : DbOracle) (hashFn : Int → Content → String) (fs : Fs)
    (sizeGroups : List (Int × List FileItem)) :
    Except String (List (String × List FileItem)) :=
  let hg := calculateHashGroups hashFn fs sizeGroups
  let _warnOnly := updateHashesInIndex oracle hg.2
  Except.ok hg.1

/-- `ScanForDuplicates` (scanner.go lines 36-91) with its error plumbing: a
failure of `addDuplicatesToIndex` for a confirmed group is printed as a warning
and the group is still sent to the result channel (lines 71-74). -/
def scanForDuplicatesE (oracle : DbOracle) (hashFn : Int → Content → String)
    (fs : Fs) (sampleSize : Nat) (rng : String → Nat → Nat)
    (files : List FileItem) : Except String (List ResultList) :=
  match scanByHashE oracle hashFn fs (scanBySize files) with
  | Except.error e => Except.error e
  | Except.ok hashGroups =>
    Except.ok (hashGroups.filterMap (fun g =>
      if g.2.length < 2 then none
      else
        match findDuplicatesInHashGroup fs sampleSize rng g.1 g.2 with
        | none => none
        | some r =>
          let _warnOnly := addDuplicatesToIndex oracle r
          some r))

/- ---------------------------------------------------------------------------
Index operations (scanner.go lines 588-931 and app.go).
--------------------------------------------------------------------------- -/

/-- The resolved configuration consumed by the core (Config in the core
package; Debug and DryRun only steer printing). -/
structure Config where
  minFileSize : Int
  binaryCompareBytes : Nat
deriving Repr, DecidableEq

/-- Go standard library path helpers used by the Index; they are external
collaborators (path/filepath) and enter the model as opaque-to-the-spec
function parameters: `clean` is filepath.Clean, `ext` is
strings.TrimPrefix(filepath.Ext(p), "."), `base` is filepath.Base,
`matchGlob pat name` is filepath.Match, `humanize` is HumanizeBytes. -/
structure PathLib where
  clean : String → String
  ext : String → String
  base : String → String
  matchGlob : String → String → Bool
  humanize : Int → String

/-- Lookup in the in-memory `map[string]*FileItem`. -/
def mapLookup (files : List (String × FileItem)) (k : String) : Option FileItem :=
  (files.find? (fun e => e.1 == k)).map (fun e => e.2)

/-- `idx.files[guid] = file`: overwrite in place or append a new binding. -/
def mapSet (files : List (String × FileItem)) (k : String) (v : FileItem) :
    List (String × FileItem) :=
  if files.any (fun e => e.1 == k) then
    files.map (fun e => if e.1 == k then (e.1, v) else e)
  else files ++ [(k, v)]

/-- One durable-store write. -/
inductive DbWrite
  | insertFile (f : FileItem)
deriving Repr, DecidableEq

/-- `AddFile` (scanner.go lines 588-637): stat the path (error is returned),
apply the minimum-size filter, and skip — leaving map and store untouched —
when a record with the same guid, size and modification time already exists;
otherwise build the record with an invalid hash, put it into the map and
INSERT OR REPLACE it.  The filesystem model holds regular files only, so the
`IsDir` early return does not arise. -/
def addFile (lib : PathLib) (cfg : Config) (fs : Fs)
    (files : List (String × FileItem)) (path : String) :
    List (String × FileItem) × List DbWrite × Option String :=
  match fs.stat path with
  | none => (files, [], some "stat error")
  | some (sz, mt) =>
    if cfg.minFileSize > 0 ∧ sz < cfg.minFileSize then (files, [], none)
    else
      let guid := lib.clean path
      let newItem : FileItem :=
        { guid := guid, path := path, extension := lib.ext path, size := sz,
          modTime := mt, hash := none, humanizedSize := lib.humanize sz }
      match mapLookup files guid with
      | some existingFile =>
        if existingFile.size = sz ∧ existingFile.modTime = mt then (files, [], none)
        else (mapSet files guid newItem, [DbWrite.insertFile newItem], none)
      | none => (mapSet files guid newItem, [DbWrite.insertFile newItem], none)

/-- The body of `AddDirectory`'s walk function for one visited file
(scanner.go lines 664-727), accumulating the in-memory map and the statements
executed inside the directory's single batched transaction: unreadable entries
are skipped, the glob filter and the minimum-size filter are applied, and a
file whose record already exists with identical size and modification time is
skipped without touching map or transaction. -/
def addDirStep (lib : PathLib) (cfg : Config) (fs : Fs) (filter : String)
    (acc : List (String × FileItem) × List DbWrite) (path : String) :
    List (String × FileItem) × List DbWrite :=
  match fs.stat path with
  | none => acc
  | some (sz, mt) =>
    if filter ≠ "" ∧ ¬ lib.matchGlob filter (lib.base path) then acc
    else if cfg.minFileSize > 0 ∧ sz < cfg.minFileSize then acc
    else
      let guid := lib.clean path
      let newItem : FileItem :=
        { guid := guid, path := path, extension := lib.ext path, size := sz,
          modTime := mt, hash := none, humanizedSize := lib.humanize sz }
      match mapLookup acc.1 guid with
      | some existingFile =>
        if existingFile.size = sz ∧ existingFile.modTime = mt then acc
        else (mapSet acc.1 guid newItem, acc.2 ++ [DbWrite.insertFile newItem])
      | none => (mapSet acc.1 guid newItem, acc.2 ++ [DbWrite.insertFile newItem])

/-- `AddDirectory` (scanner.go lines 641-742): walk the directory's files in
walk order and commit one batched transaction at the end. -/
def addDirectory (lib : PathLib) (cfg : Config) (fs : Fs) (filter : String)
    (files : List (String × FileItem)) (walkOrder : List String) :
    List (String × FileItem) × List DbWrite :=
  walkOrder.foldl (addDirStep lib cfg fs filter) (files, [])

/-- `Purge` (scanner.go lines 768-810): collect the guids whose path no longer
exists, return 0 on an empty list, otherwise delete them from the in-memory
map while executing the DELETEs, then commit.  `commitOk` says whether the
final `tx.Commit()` succeeds; on failure the function returns the error — but
the in-memory deletions have already happened. -/
def purge (fs : Fs) (commitOk : Bool) (files : List (String × FileItem)) :
    List (String × FileItem) × Except String Nat :=
  let guidsToDelete :=
    (files.filter (fun e => (fs.read e.2.path).isNone)).map (fun e => e.1)
  if guidsToDelete.isEmpty then (files, Except.ok 0)
  else
    let newFiles := files.filter (fun e => ! guidsToDelete.contains e.1)
    if commitOk then (newFiles, Except.ok guidsToDelete.length)
    else (newFiles, Except.error "failed to commit transaction for purge")

/- ---------------------------------------------------------------------------
Durable-store tables (app.go, scanner.go): files and duplicates.
--------------------------------------------------------------------------- -/

/-- One row of the `duplicates` table (guid PRIMARY KEY, scanned). -/
structure DupRow where
  guid : String
  scanned : Int
deriving Repr, DecidableEq

/-- The durable store: the `files` table and the `duplicates` table.  The
schema declares `FOREIGN KEY (guid) REFERENCES files(guid)` but SQLite does
not enforce foreign keys unless `PRAGMA foreign_keys = ON` is issued, which
the code never does, and no `ON DELETE CASCADE` is declared. -/
structure Tables where
  filesT : List FileItem
  duplicatesT : List DupRow
deriving Repr, DecidableEq

/-- `ClearIndex` (app.go lines 583-631): `DELETE FROM files` in one
transaction; the duplicates table is untouched (the code itself carries the
comment `Todo: also delete duplicates table?`). -/
def clearIndexTables (t : Tables) : Tables :=
  { t with filesT := [] }

/-- `ForgetDuplicates` (scanner.go lines 898-913):
`DELETE from files WHERE guid IN (SELECT guid FROM duplicates)`; the
duplicates table itself is untouched. -/
def forgetDuplicatesTables (t : Tables) : Tables :=
  { t with filesT :=
      t.filesT.filter (fun f => ! t.duplicatesT.any (fun d => d.guid == f.guid)) }

/-- The effect of `Purge` (scanner.go lines 768-810) on the files table:
`DELETE FROM files WHERE guid = ?` for every record whose path no longer
exists; the duplicates table is untouched. -/
def purgeTables (fs : Fs) (t : Tables) : Tables :=
  { t with filesT := t.filesT.filter (fun f => ! (fs.read f.path).isNone) }

/-- Duplicates rows whose guid no longer appears in the files table. -/
def danglingDuplicates (t : Tables) : List DupRow :=
  t.duplicatesT.filter (fun d => ! t.filesT.any (fun f => f.guid == d.guid))

/-- ASCII case folding as applied by SQLite's default `LIKE` implementation:
the bytes `A`-`Z` are mapped to lowercase, everything else is untouched.  The
code never issues `PRAGMA case_sensitive_like`, so this folding is in force
for `RemovePathFromIndex`'s DELETE. -/
def foldAscii (c : Char) : Char :=
  if 'A' ≤ c ∧ c ≤ 'Z' then Char.ofNat (c.toNat + 32) else c

/-- SQL `LIKE` pattern matching as used by `RemovePathFromIndex`: `%` matches
any (possibly empty) run of characters — realized by trying every suffix of
the subject — `_` matches any single character, and a literal pattern
character matches up to ASCII case (`foldAscii`), SQLite's default. -/
def likeMatch : List Char → List Char → Bool
  | [], s => s.isEmpty
  | p :: ps, s =>
    if p = '%' then s.tails.any (fun t => likeMatch ps t)
    else
      match s with
      | [] => false
      | c :: s' => (p == '_' || foldAscii p == foldAscii c) && likeMatch ps s'

/-- `RemovePathFromIndex` (app.go lines 426-488), effect on the files table:
one transaction executing `DELETE FROM files WHERE path = ? OR path LIKE ?`
with arguments `normalizedPath` and `normalizedPath + separator + "%"`
(separator `/`), returning the affected row count. -/
def removePathFromIndex (normalizedPath : String) (filesT : List FileItem) :
    List FileItem × Nat :=
  let hit := fun (f : FileItem) =>
    f.path == normalizedPath || likeMatch (normalizedPath ++ "/%").data f.path.data
  (filesT.filter (fun f => ! hit f), (filesT.filter hit).length)

/-- The files-join-duplicates rows (`INNER JOIN duplicates d ON f.guid =
d.guid`); `guid` is the duplicates table's primary key, so a files row joins
iff some duplicates row carries its guid.  The `ORDER BY size DESC, hash`
of the queries only orders rows and is irrelevant to membership. -/
def joinDupes (t : Tables) : List FileItem :=
  t.filesT.filter (fun f => t.duplicatesT.any (fun d => d.guid == f.guid))

/-- The subquery of `GetRestOfDuplicates` (scanner.go lines 487-492):
`SELECT MIN(f2.guid) ... GROUP BY f2.size, f2.hash` over the join — the
lexicographically smallest guid of every (size, hash) group. -/
def groupMinGuids (t : Tables) : List String :=
  (((joinDupes t).map (fun f => (f.size, f.hash))).dedup).filterMap
    (fun key =>
      (((joinDupes t).filter (fun f => f.size == key.1 && f.hash == key.2)).map
        (fun f => f.guid)).min?)

/-- `GetRestOfDuplicates` (scanner.go lines 481-521): every joined row whose
guid is not one of the per-(size, hash)-group minima. -/
def GetRestOfDuplicates (t : Tables) : List FileItem :=
  (joinDupes t).filter (fun f => ! (groupMinGuids t).contains f.guid)

/-- `MoveDuplicateFilesToDirectory` (app.go lines 490-564), reduced to which
files it moves: with DryRun off and every rename succeeding, it renames
exactly the files returned by `GetRestOfDuplicates`, in order.  The
destination naming, the path/guid rewrite and the store update carry no
membership information and are omitted. -/
def moveDuplicateFilesToDirectory (t : Tables) : List String :=
  (GetRestOfDuplicates t).map (fun f => f.path)

/-- Antisymmetry of the lexicographic order on guids, needed to reason about
SQL `MIN(guid)`. -/
instance : Std.Antisymm (fun (x y : String) => x ≤ y) :=
  ⟨fun h1 h2 => le_antisymm h1 h2⟩

/- ---------------------------------------------------------------------------
Proof views of the scan pipeline.  These definitions restate the folds of
stage 1/2 in forms convenient for induction; lemmas below prove them equal to
the embedded functions.
--------------------------------------------------------------------------- -/

/-- Lookup of a key's group in an association list of groups. -/
def groupLookup {α : Type} [DecidableEq α] (k : α)
    (gs : List (α × List FileItem)) : Option (List FileItem) :=
  (gs.find? (fun g => g.1 == k)).map (fun g => g.2)

/-- Folding a sequence of keyed insertions into grouped buckets. -/
def foldGroups {α : Type} [DecidableEq α] (pairs : List (α × FileItem))
    (init : List (α × List FileItem)) : List (α × List FileItem) :=
  pairs.foldl (fun gs p => insertGroup p.1 p.2 gs) init

/-- The keyed routing sequence one size group feeds into the hash buckets:
records with a valid hash keyed by that hash, then the worker results in job
order. -/
def routePairs (hashFn : Int → Content → String) (fs : Fs)
    (group : List FileItem) : List (String × FileItem) :=
  (group.filter (fun f => f.hash.isSome)).map (fun f => (f.hash.getD "", f))
    ++ (group.filter (fun f => ! f.hash.isSome)).filterMap (hashJob hashFn fs)

/-- The full stage-2 routing sequence: every size group of two or more
members contributes its routing pairs, in order. -/
def stage2Pairs (hashFn : Int → Content → String) (fs : Fs) :
    List (Int × List FileItem) → List (String × FileItem)
  | [] => []
  | g :: rest =>
    (if g.2.length < 2 then [] else routePairs hashFn fs g.2)
      ++ stage2Pairs hashFn fs rest

/-- The hash updates stage 2 queues for the durable store, one per freshly
hashed record. -/
def stage2Updates (hashFn : Int → Content → String) (fs : Fs) :
    List (Int × List FileItem) → List (String × String)
  | [] => []
  | g :: rest =>
    (if g.2.length < 2 then []
     else ((g.2.filter (fun f => ! f.hash.isSome)).filterMap
        (hashJob hashFn fs)).map (fun p => (p.2.guid, p.1)))
      ++ stage2Updates hashFn fs rest

/-- The semantic bucket key of a record: the digest of its current on-disk
content (`none` when the file is unreadable). -/
def skey (hashFn : Int → Content → String) (fs : Fs) (f : FileItem) :
    Option String :=
  (fs.read f.path).map (fun c => hashFn f.size c)

/-- The records whose exact size is shared by at least two catalog records —
the records stage 1 lets through. -/
def bigMembers (files : List FileItem) : List FileItem :=
  files.filter (fun f => 2 ≤ files.countP (fun g => g.size == f.size))

/-- A guid is confirmed by a scan when some returned group contains it. -/
def memberOfSomeGroup (results : List ResultList) (g : String) : Prop :=
  ∃ r ∈ results, g ∈ r.FileGuids

/-- The order-free description of the guids a scan confirms when every stored
hash is accurate and the digest is collision-free: the record sits in a size
group of at least two, is readable, and at least two records of big size
groups share its content digest. -/
def dupePred (hashFn : Int → Content → String) (fs : Fs)
    (files : List FileItem) (g : String) : Prop :=
  ∃ f ∈ files, f.guid = g ∧ (∃ c, fs.read f.path = some c) ∧
    2 ≤ files.countP (fun f' => f'.size == f.size) ∧
    2 ≤ (bigMembers files).countP
        (fun f' => skey hashFn fs f' == skey hashFn fs f)

end DupeFiles

namespace DupeFiles

/- ---------------------------------------------------------------------------
Theorems (library part): the full-compare loop is exact.
--------------------------------------------------------------------------- -/

theorem compareFilesBinaryLoop_eq (a b : Content) :
    compareFilesBinaryLoop a b = decide (a = b) := by
  induction a, b using compareFilesBinaryLoop.induct with
  | case1 a b h1 =>
    rw [compareFilesBinaryLoop, dif_pos h1]
    have : a ≠ b := by
      intro h
      subst h
      exact h1 rfl
    simp [this]
  | case2 a b h1 h2 =>
    rw [compareFilesBinaryLoop, dif_neg h1, dif_pos h2]
    have ha : a = [] := List.length_eq_zero.mp h2.1
    have hb : b = [] := List.length_eq_zero.mp h2.2
    subst ha; subst hb
    simp
  | case3 a b h1 h2 h3 =>
    rw [compareFilesBinaryLoop, dif_neg h1, dif_neg h2, if_pos h3]
    have : a ≠ b := by
      intro h
      subst h
      exact h3 rfl
    simp [this]
  | case4 a b h1 h2 h3 ih =>
    rw [compareFilesBinaryLoop, dif_neg h1, dif_neg h2, if_neg h3, ih]
    have htake : a.take chunkSize = b.take chunkSize := not_ne_iff.mp h3
    have hiff : a = b ↔ a.drop chunkSize = b.drop chunkSize := by
      constructor
      · intro h; rw [h]
      · intro h
        have ha' := List.take_append_drop chunkSize a
        have hb' := List.take_append_drop chunkSize b
        rw [← ha', ← hb', htake, h]
    exact decide_eq_decide.mpr hiff.symm

/- ---------------------------------------------------------------------------
Library lemmas: grouping folds.
--------------------------------------------------------------------------- -/

theorem insertGroup_lookup {α : Type} [DecidableEq α] (k k' : α) (f : FileItem)
    (gs : List (α × List FileItem)) :
    groupLookup k' (insertGroup k f gs)
      = if k' = k then some ((groupLookup k gs).getD [] ++ [f])
        else groupLookup k' gs := by
  induction gs with
  | nil =>
    by_cases h : k' = k
    · subst h
      simp [insertGroup, groupLookup]
    · simp [insertGroup, groupLookup, List.find?, Ne.symm h, h,
        beq_eq_false_iff_ne.mpr (Ne.symm h)]
  | cons g rest ih =>
    obtain ⟨k0, l0⟩ := g
    by_cases h0 : k0 = k
    · subst h0
      simp only [insertGroup, if_pos rfl]
      by_cases h : k' = k0
      · subst h
        simp [groupLookup, List.find?]
      · simp [groupLookup, List.find?, beq_eq_false_iff_ne.mpr (Ne.symm h), h]
    · simp only [insertGroup, if_neg h0]
      by_cases h : k' = k0
      · subst h
        have hkk : ¬ k' = k := fun hk => h0 (hk ▸ rfl)
        simp [groupLookup, List.find?, hkk]
      · by_cases hk : k' = k
        · subst hk
          simp only [groupLookup, List.find?] at *
          rw [beq_eq_false_iff_ne.mpr (Ne.symm h)] at *
          simpa [groupLookup, beq_eq_false_iff_ne.mpr (Ne.symm h0)] using ih
        · simp only [groupLookup, List.find?] at *
          rw [beq_eq_false_iff_ne.mpr (Ne.symm h)] at *
          simpa [hk] using ih

theorem foldGroups_lookup {α : Type} [DecidableEq α]
    (pairs : List (α × FileItem)) :
    ∀ (init : List (α × List FileItem)) (k : α),
    groupLookup k (foldGroups pairs init)
      = match groupLookup k init with
        | some l0 => some (l0 ++ (pairs.filter (fun p => p.1 == k)).map (fun p => p.2))
        | none =>
          if (pairs.filter (fun p => p.1 == k)).isEmpty then none
          else some ((pairs.filter (fun p => p.1 == k)).map (fun p => p.2)) := by
  induction pairs with
  | nil =>
    intro init k
    show groupLookup k init = _
    cases h : groupLookup k init <;> simp [h]
  | cons p pairs ih =>
    intro init k
    show groupLookup k (foldGroups pairs (insertGroup p.1 p.2 init)) = _
    rw [ih (insertGroup p.1 p.2 init) k, insertGroup_lookup p.1 k p.2 init]
    by_cases hk : k = p.1
    · have hbeq : (p.1 == k) = true := beq_iff_eq.mpr hk.symm
      have hfilter : (p :: pairs).filter (fun q => q.1 == k)
          = p :: pairs.filter (fun q => q.1 == k) := by
        simp [List.filter, hbeq]
      rw [if_pos hk, hfilter]
      cases h : groupLookup p.1 init <;> simp [hk, h]
    · have hfilter : (p :: pairs).filter (fun q => q.1 == k)
          = pairs.filter (fun q => q.1 == k) := by
        have : (p.1 == k) = false := beq_eq_false_iff_ne.mpr (fun he => hk (he ▸ rfl))
        simp [List.filter, this]
      rw [if_neg hk, hfilter]

theorem insertGroup_keys {α : Type} [DecidableEq α] (k : α) (f : FileItem)
    (gs : List (α × List FileItem)) :
    (insertGroup k f gs).map (fun g => g.1)
      = if k ∈ gs.map (fun g => g.1) then gs.map (fun g => g.1)
        else gs.map (fun g => g.1) ++ [k] := by
  induction gs with
  | nil => simp [insertGroup]
  | cons g rest ih =>
    obtain ⟨k0, l0⟩ := g
    by_cases h0 : k0 = k
    · subst h0
      simp [insertGroup]
    · have hne : ¬ k = k0 := fun h => h0 (h ▸ rfl)
      simp only [insertGroup, if_neg h0, List.map_cons, List.mem_cons]
      rw [ih]
      by_cases hmem : k ∈ rest.map (fun g => g.1)
      · simp [hmem, hne]
      · simp [hmem, hne]

theorem foldGroups_keys_nodup {α : Type} [DecidableEq α]
    (pairs : List (α × FileItem)) :
    ∀ (init : List (α × List FileItem)),
    ((init.map (fun g => g.1)).Nodup) →
    ((foldGroups pairs init).map (fun g => g.1)).Nodup := by
  induction pairs with
  | nil => exact fun init h => h
  | cons p pairs ih =>
    intro init hnd
    show ((foldGroups pairs (insertGroup p.1 p.2 init)).map _).Nodup
    apply ih
    rw [insertGroup_keys]
    by_cases hmem : p.1 ∈ init.map (fun g => g.1)
    · simpa [hmem] using hnd
    · rw [if_neg hmem]
      apply List.Nodup.append hnd (List.nodup_singleton _)
      intro a ha hb
      rw [List.mem_singleton] at hb
      exact hmem (hb ▸ ha)

theorem mem_iff_groupLookup {α : Type} [DecidableEq α]
    (gs : List (α × List FileItem)) (hnd : (gs.map (fun g => g.1)).Nodup)
    (k : α) (l : List FileItem) :
    (k, l) ∈ gs ↔ groupLookup k gs = some l := by
  induction gs with
  | nil => simp [groupLookup]
  | cons g rest ih =>
    obtain ⟨k0, l0⟩ := g
    rw [List.map_cons, List.nodup_cons] at hnd
    by_cases h : k = k0
    · subst h
      simp only [groupLookup, List.find?, beq_self_eq_true]
      constructor
      · intro hmem
        rcases List.mem_cons.mp hmem with he | hrest
        · simp at he
          simp [he]
        · exact absurd (List.mem_map.mpr ⟨(k, l), hrest, rfl⟩) hnd.1
      · intro hsome
        simp at hsome
        exact List.mem_cons.mpr (Or.inl (by rw [hsome]))
    · have hbf : (k0 == k) = false := beq_eq_false_iff_ne.mpr (fun he => h (he ▸ rfl))
      simp only [groupLookup, List.find?, hbf]
      rw [← groupLookup]
      rw [← ih hnd.2]
      simp [h]

/- ---------------------------------------------------------------------------
Library lemmas: the pipeline in proof-view form.
--------------------------------------------------------------------------- -/

theorem scanBySize_eq_foldGroups (files : List FileItem) :
    scanBySize files = foldGroups (files.map (fun f => (f.size, f))) [] := by
  unfold scanBySize foldGroups
  rw [List.foldl_map]

theorem processSizeGroup_eq (hashFn : Int → Content → String) (fs : Fs)
    (acc : List (String × List FileItem) × List (String × String))
    (group : List FileItem) :
    processSizeGroup hashFn fs acc group
      = if group.length < 2 then acc
        else (foldGroups (routePairs hashFn fs group) acc.1,
              acc.2 ++ ((group.filter (fun f => ! f.hash.isSome)).filterMap
                  (hashJob hashFn fs)).map (fun p => (p.2.guid, p.1))) := by
  unfold processSizeGroup
  by_cases h : group.length < 2
  · simp [h]
  · rw [if_neg h, if_neg h]
    unfold foldGroups routePairs
    rw [List.foldl_append, List.foldl_map]

theorem foldl_processSizeGroup_eq (hashFn : Int → Content → String) (fs : Fs) :
    ∀ (sizeGroups : List (Int × List FileItem))
      (acc : List (String × List FileItem) × List (String × String)),
    sizeGroups.foldl (fun acc g => processSizeGroup hashFn fs acc g.2) acc
      = (foldGroups (stage2Pairs hashFn fs sizeGroups) acc.1,
         acc.2 ++ stage2Updates hashFn fs sizeGroups) := by
  intro sizeGroups
  induction sizeGroups with
  | nil => intro acc; simp [stage2Pairs, stage2Updates, foldGroups]
  | cons g rest ih =>
    intro acc
    show rest.foldl _ (processSizeGroup hashFn fs acc g.2) = _
    rw [ih (processSizeGroup hashFn fs acc g.2), processSizeGroup_eq]
    by_cases h : g.2.length < 2
    · simp only [if_pos h, stage2Pairs, stage2Updates, h, List.nil_append]
      simp [h]
    · simp only [if_neg h, stage2Pairs, stage2Updates]
      rw [Prod.mk.injEq]
      refine ⟨?_, by simp [List.append_assoc]⟩
      show foldGroups (stage2Pairs hashFn fs rest) (foldGroups (routePairs hashFn fs g.2) acc.1) = _
      unfold foldGroups
      rw [← List.foldl_append]

theorem calculateHashGroups_eq (hashFn : Int → Content → String) (fs : Fs)
    (sizeGroups : List (Int × List FileItem)) :
    calculateHashGroups hashFn fs sizeGroups
      = (foldGroups (stage2Pairs hashFn fs sizeGroups) [],
         stage2Updates hashFn fs sizeGroups) := by
  unfold calculateHashGroups
  rw [foldl_processSizeGroup_eq]
  simp

theorem compare_some_true_of_read_eq (fs : Fs) (pA pB : String)
    (sampleSize : Nat) (rng : Nat → Nat) (c : Content)
    (hA : fs.read pA = some c) (hB : fs.read pB = some c) :
    compareFilesBinarySampleSize fs pA pB sampleSize rng = some true := by
  unfold compareFilesBinarySampleSize
  rw [hA, hB]
  simp only [ne_eq, not_true_eq_false, if_neg, ite_not]
  by_cases hc : c.length = 0
  · simp [hc]
  · simp [hc, List.all_eq_true]

theorem compare_eq_some_true_reads (fs : Fs) (pA pB : String)
    (sampleSize : Nat) (rng : Nat → Nat)
    (h : compareFilesBinarySampleSize fs pA pB sampleSize rng = some true) :
    ∃ a b, fs.read pA = some a ∧ fs.read pB = some b ∧ a.length = b.length := by
  unfold compareFilesBinarySampleSize at h
  split at h
  · cases h
  · rename_i a hA
    split at h
    · cases h
    · rename_i b hB
      by_cases hlen : a.length ≠ b.length
      · rw [if_pos hlen] at h
        cases h
      · exact ⟨a, b, hA, hB, not_ne_iff.mp hlen⟩

theorem findDup_of_all_read_eq (fs : Fs) (sampleSize : Nat)
    (rng : String → Nat → Nat) (k : String) (l : List FileItem) (c : Content)
    (hlen : 2 ≤ l.length) (hall : ∀ f ∈ l, fs.read f.path = some c) :
    findDuplicatesInHashGroup fs sampleSize rng k l
      = some ⟨k, l.map (fun f => f.guid)⟩ := by
  unfold findDuplicatesInHashGroup
  rw [if_neg (by omega)]
  cases l with
  | nil => simp at hlen
  | cons anchor rest =>
    have hfilter : rest.filter (fun f =>
        compareFilesBinarySampleSize fs anchor.path f.path sampleSize (rng f.path)
          == some true) = rest := by
      apply List.filter_eq_self.mpr
      intro f hf
      rw [compare_some_true_of_read_eq fs anchor.path f.path sampleSize (rng f.path) c
        (hall anchor (List.mem_cons_self anchor rest))
        (hall f (List.mem_cons_of_mem anchor hf))]
      rfl
    simp only [hfilter]
    rw [if_pos (by simpa using hlen)]

theorem findDup_guids_spec (fs : Fs) (sampleSize : Nat)
    (rng : String → Nat → Nat) (k : String) (l : List FileItem) (r : ResultList)
    (h : findDuplicatesInHashGroup fs sampleSize rng k l = some r) :
    r.HashSum = k ∧ ∃ n : Nat, ∀ gid ∈ r.FileGuids, ∃ f ∈ l, f.guid = gid ∧
      ∃ cf, fs.read f.path = some cf ∧ cf.length = n := by
  unfold findDuplicatesInHashGroup at h
  by_cases hlen : l.length < 2
  · rw [if_pos hlen] at h; cases h
  rw [if_neg hlen] at h
  split at h
  · cases h
  case _ anchor rest =>
    dsimp only [] at h
    by_cases hd : 2 ≤ (anchor :: rest.filter (fun f =>
        compareFilesBinarySampleSize fs anchor.path f.path sampleSize (rng f.path)
          == some true)).length
    swap
    · rw [if_neg hd] at h; cases h
    rw [if_pos hd] at h
    have hr : r = ⟨k, (anchor :: rest.filter (fun f =>
        compareFilesBinarySampleSize fs anchor.path f.path sampleSize (rng f.path)
          == some true)).map (fun f => f.guid)⟩ := by
      cases h; rfl
    subst hr
    refine ⟨rfl, ?_⟩
    have hne : rest.filter (fun f =>
        compareFilesBinarySampleSize fs anchor.path f.path sampleSize (rng f.path)
          == some true) ≠ [] := by
      intro hnil
      rw [hnil] at hd
      simp at hd
    obtain ⟨f0, hf0⟩ := List.exists_mem_of_ne_nil _ hne
    have hf0p := List.of_mem_filter hf0
    rw [beq_iff_eq] at hf0p
    obtain ⟨ca, c0, hca, hc0, hlen0⟩ :=
      compare_eq_some_true_reads fs anchor.path f0.path sampleSize (rng f0.path) hf0p
    refine ⟨ca.length, ?_⟩
    intro gid hgid
    rcases List.mem_map.mp hgid with ⟨f, hfmem, hfg⟩
    rcases List.mem_cons.mp hfmem with hfa | hff
    · subst hfa
      exact ⟨f, List.mem_cons_self f rest, hfg, ca, hca, rfl⟩
    · have hfp := List.of_mem_filter hff
      rw [beq_iff_eq] at hfp
      obtain ⟨a', cf, ha', hcf, hlenf⟩ :=
        compare_eq_some_true_reads fs anchor.path f.path sampleSize (rng f.path) hfp
      have haa : a' = ca := by
        rw [hca] at ha'
        exact (Option.some.injEq _ _ ▸ ha').symm ▸ rfl
      refine ⟨f, List.mem_cons_of_mem anchor (List.mem_of_mem_filter hff), hfg,
        cf, hcf, ?_⟩
      rw [← hlenf, haa]

theorem scan_results_eq (hashFn : Int → Content → String) (fs : Fs)
    (sampleSize : Nat) (rng : String → Nat → Nat) (files : List FileItem) :
    (scanForDuplicates hashFn fs sampleSize rng files).1
      = (foldGroups (stage2Pairs hashFn fs (scanBySize files)) []).filterMap
          (fun g => if g.2.length < 2 then none
            else findDuplicatesInHashGroup fs sampleSize rng g.1 g.2) := by
  unfold scanForDuplicates
  dsimp only []
  rw [calculateHashGroups_eq]

theorem scan_updates_eq (hashFn : Int → Content → String) (fs : Fs)
    (sampleSize : Nat) (rng : String → Nat → Nat) (files : List FileItem) :
    (scanForDuplicates hashFn fs sampleSize rng files).2
      = stage2Updates hashFn fs (scanBySize files) := by
  unfold scanForDuplicates
  dsimp only []
  rw [calculateHashGroups_eq]

theorem memberOfSomeGroup_iff (hashFn : Int → Content → String) (fs : Fs)
    (sampleSize : Nat) (rng : String → Nat → Nat) (files : List FileItem)
    (g : String) :
    memberOfSomeGroup (scanForDuplicates hashFn fs sampleSize rng files).1 g ↔
      ∃ k l, (k, l) ∈ foldGroups (stage2Pairs hashFn fs (scanBySize files)) [] ∧
        2 ≤ l.length ∧ ∃ r, findDuplicatesInHashGroup fs sampleSize rng k l = some r ∧
          g ∈ r.FileGuids := by
  unfold memberOfSomeGroup
  rw [scan_results_eq]
  constructor
  · rintro ⟨r, hr, hg⟩
    rcases List.mem_filterMap.mp hr with ⟨⟨k, l⟩, hmem, heq⟩
    by_cases hlen : l.length < 2
    · rw [if_pos hlen] at heq; cases heq
    · rw [if_neg hlen] at heq
      exact ⟨k, l, hmem, by omega, r, heq, hg⟩
  · rintro ⟨k, l, hmem, hlen, r, heq, hg⟩
    refine ⟨r, ?_, hg⟩
    apply List.mem_filterMap.mpr
    refine ⟨(k, l), hmem, ?_⟩
    have hnl : ¬ (k, l).2.length < 2 := by simp only []; omega
    rw [if_neg hnl]
    exact heq

/- ---------------------------------------------------------------------------
Library lemmas: counting.
--------------------------------------------------------------------------- -/

theorem countP_or_disjoint {β : Type} (l : List β) (p q : β → Bool)
    (hd : ∀ x ∈ l, ¬(p x = true ∧ q x = true)) :
    l.countP (fun x => p x || q x) = l.countP p + l.countP q := by
  induction l with
  | nil => simp
  | cons a l ih =>
    rw [List.countP_cons, List.countP_cons, List.countP_cons,
      ih (fun x hx => hd x (List.mem_cons_of_mem a hx))]
    cases hp : p a <;> cases hq : q a
    · simp
    · simp only [Bool.false_or]
      simp
      omega
    · simp only [Bool.true_or]
      simp
      omega
    · exact absurd ⟨hp, hq⟩ (hd a (List.mem_cons_self a l))

theorem countP_filter_split {β : Type} (l : List β) (p q : β → Bool) :
    (l.filter p).countP q + (l.filter (fun x => ! p x)).countP q
      = l.countP q := by
  rw [List.countP_filter, List.countP_filter]
  rw [← countP_or_disjoint l (fun x => q x && p x) (fun x => q x && ! p x)
    (fun x _ hc => by
      rcases hc with ⟨h1, h2⟩
      have h1' : q x = true ∧ p x = true := by simpa using h1
      have h2' : q x = true ∧ (! p x) = true := by simpa using h2
      have hfalse := h2'.2
      rw [h1'.2] at hfalse
      simp at hfalse)]
  apply List.countP_congr
  intro x _
  cases hq : q x <;> cases hp : p x <;> simp [hp, hq]

theorem filterMap_countP_of_forall_some {β γ : Type} (l : List β)
    (g : β → Option γ) (p : γ → Bool) (q : β → Bool)
    (h : ∀ x ∈ l, ∃ y, g x = some y ∧ p y = q x) :
    (l.filterMap g).countP p = l.countP q := by
  induction l with
  | nil => simp
  | cons a l ih =>
    obtain ⟨y, hy, hpy⟩ := h a (List.mem_cons_self a l)
    rw [List.filterMap_cons, hy, List.countP_cons, List.countP_cons,
      ih (fun x hx => h x (List.mem_cons_of_mem a hx)), hpy]

theorem sum_countP_fibers (files : List FileItem) (p : FileItem → Bool) :
    ∀ (keys : List Int), keys.Nodup →
    (keys.map (fun s => files.countP (fun f => p f && f.size == s))).sum
      = files.countP (fun f => p f && keys.contains f.size) := by
  intro keys
  induction keys with
  | nil =>
    intro _
    simp [List.countP_eq_zero]
  | cons s keys ih =>
    intro hnd
    rw [List.nodup_cons] at hnd
    rw [List.map_cons, List.sum_cons, ih hnd.2]
    rw [← countP_or_disjoint files (fun f => p f && f.size == s)
      (fun f => p f && keys.contains f.size)
      (fun f _ hc => by
        rcases hc with ⟨h1, h2⟩
        rw [Bool.and_eq_true, beq_iff_eq] at h1
        rw [Bool.and_eq_true] at h2
        have : s ∈ keys := by
          have := h2.2
          rw [h1.2] at this
          simpa using this
        exact hnd.1 this)]
    apply List.countP_congr
    intro f _
    cases hp : p f <;> cases hs : f.size == s
    · simp [hp]
    · simp [hp]
    · have hne : f.size ≠ s := by simpa using hs
      simp [hp, hs, List.contains_cons, hne]
    · have he : f.size = s := by simpa using hs
      simp [hp, hs, List.contains_cons, he]

/- ---------------------------------------------------------------------------
Library lemmas: size groups and bucket counting.
--------------------------------------------------------------------------- -/

theorem scanBySize_keys_nodup (files : List FileItem) :
    ((scanBySize files).map (fun g => g.1)).Nodup := by
  rw [scanBySize_eq_foldGroups]
  exact foldGroups_keys_nodup _ [] (by simp)

theorem scanBySize_mem (files : List FileItem) (s : Int) (l : List FileItem) :
    (s, l) ∈ scanBySize files ↔
      files.filter (fun f => f.size == s) ≠ [] ∧
        l = files.filter (fun f => f.size == s) := by
  rw [scanBySize_eq_foldGroups,
    mem_iff_groupLookup _ (foldGroups_keys_nodup _ [] (by simp)),
    foldGroups_lookup]
  have hinit : groupLookup s ([] : List (Int × List FileItem)) = none := rfl
  rw [hinit]
  have hcomp : ((fun p : Int × FileItem => p.1 == s) ∘ fun f => (f.size, f))
      = (fun f : FileItem => f.size == s) := rfl
  have hfm : ((files.map (fun f => (f.size, f))).filter
        (fun p => p.1 == s)).map (fun p => p.2)
      = files.filter (fun f => f.size == s) := by
    rw [List.filter_map, List.map_map, hcomp]
    exact List.map_id'' (fun _ => rfl) _
  have hemp : ((files.map (fun f => (f.size, f))).filter
        (fun p => p.1 == s)).isEmpty = (files.filter (fun f => f.size == s)).isEmpty := by
    rw [List.filter_map, hcomp]
    cases h : (files.filter (fun f => f.size == s)) <;> rfl
  by_cases he : (files.filter (fun f => f.size == s)).isEmpty
  · rw [hemp, if_pos he]
    simp only [List.isEmpty_iff] at he
    constructor
    · intro h; cases h
    · intro ⟨hne, _⟩
      exact absurd he hne
  · rw [hemp, if_neg he]
    simp only [List.isEmpty_iff] at he
    rw [hfm]
    constructor
    · intro h
      exact ⟨he, (Option.some.injEq _ _ ▸ h).symm ▸ rfl⟩
    · intro ⟨_, hl⟩
      rw [hl]

theorem scanBySize_group_of_mem (files : List FileItem) (f : FileItem)
    (hf : f ∈ files) :
    (f.size, files.filter (fun g => g.size == f.size)) ∈ scanBySize files := by
  rw [scanBySize_mem]
  refine ⟨?_, rfl⟩
  intro h
  have hmem : f ∈ files.filter (fun g => g.size == f.size) :=
    List.mem_filter.mpr ⟨hf, by simp⟩
  rw [h] at hmem
  cases hmem

theorem routePairs_countP (hashFn : Int → Content → String) (fs : Fs)
    (group : List FileItem) (k : String)
    (hacc : ∀ f ∈ group, ∀ h, f.hash = some h → skey hashFn fs f = some h)
    (hpre : ∀ f ∈ group, (fs.read f.path).isSome) :
    (routePairs hashFn fs group).countP (fun p => p.1 == k)
      = group.countP (fun f => skey hashFn fs f == some k) := by
  unfold routePairs
  rw [List.countP_append]
  have hcached : ((group.filter (fun f => f.hash.isSome)).map
        (fun f => (f.hash.getD "", f))).countP (fun p => p.1 == k)
      = (group.filter (fun f => f.hash.isSome)).countP
          (fun f => skey hashFn fs f == some k) := by
    rw [List.countP_map]
    apply List.countP_congr
    intro f hf
    have hfg := List.mem_of_mem_filter hf
    have hfs := List.of_mem_filter hf
    obtain ⟨h, hh⟩ := Option.isSome_iff_exists.mp hfs
    have hskey := hacc f hfg h hh
    show ((fun p : String × FileItem => p.1 == k) ((f.hash.getD "", f))) = true ↔ _
    rw [hh, hskey]
    simp
  have hhashed : ((group.filter (fun f => ! f.hash.isSome)).filterMap
        (hashJob hashFn fs)).countP (fun p => p.1 == k)
      = (group.filter (fun f => ! f.hash.isSome)).countP
          (fun f => skey hashFn fs f == some k) := by
    apply filterMap_countP_of_forall_some
    intro f hf
    have hfg := List.mem_of_mem_filter hf
    have hfn : f.hash = none := by
      have hns := List.of_mem_filter hf
      cases hc : f.hash with
      | none => rfl
      | some h => rw [hc] at hns; simp at hns
    obtain ⟨c, hc⟩ := Option.isSome_iff_exists.mp (hpre f hfg)
    refine ⟨(hashFn f.size c, withHash f (hashFn f.size c)), ?_, ?_⟩
    · unfold hashJob
      rw [hfn, hc]
      rfl
    · show (hashFn f.size c == k) = (skey hashFn fs f == some k)
      unfold skey
      rw [hc]
      rfl
  rw [hcached, hhashed, countP_filter_split]

theorem stage2Pairs_countP_sum (hashFn : Int → Content → String) (fs : Fs)
    (pk : String × FileItem → Bool) :
    ∀ gs : List (Int × List FileItem),
    (stage2Pairs hashFn fs gs).countP pk
      = (gs.map (fun g => if g.2.length < 2 then 0
          else (routePairs hashFn fs g.2).countP pk)).sum := by
  intro gs
  induction gs with
  | nil => simp [stage2Pairs]
  | cons g rest ih =>
    show ((if g.2.length < 2 then [] else routePairs hashFn fs g.2)
        ++ stage2Pairs hashFn fs rest).countP pk = _
    rw [List.countP_append, ih, List.map_cons, List.sum_cons]
    by_cases h : g.2.length < 2
    · simp [h]
    · simp [h]

theorem absorb_bigsize (files : List FileItem) (q : FileItem → Bool) (s : Int) :
    (if files.countP (fun f => f.size == s) < 2 then 0
     else files.countP (fun f => q f && f.size == s))
      = files.countP (fun f =>
          (q f && decide (2 ≤ files.countP (fun g => g.size == f.size)))
            && f.size == s) := by
  by_cases hbig : files.countP (fun f => f.size == s) < 2
  · rw [if_pos hbig]
    symm
    rw [List.countP_eq_zero]
    intro f hf hcontra
    simp only [Bool.and_eq_true, beq_iff_eq, decide_eq_true_eq] at hcontra
    obtain ⟨⟨_, hb⟩, hs⟩ := hcontra
    rw [hs] at hb
    omega
  · rw [if_neg hbig]
    apply List.countP_congr
    intro f _
    by_cases hs : f.size = s
    · have hb : 2 ≤ files.countP (fun g => g.size == f.size) := by
        rw [hs]; omega
      have hdec : decide (2 ≤ files.countP (fun g => g.size == f.size)) = true :=
        decide_eq_true hb
      rw [hdec, Bool.and_true]
    · have hsb : (f.size == s) = false := by simpa using hs
      rw [hsb, Bool.and_false, Bool.and_false]

theorem stage2Pairs_countP (hashFn : Int → Content → String) (fs : Fs)
    (files : List FileItem) (k : String)
    (hacc : ∀ f ∈ files, ∀ h, f.hash = some h → skey hashFn fs f = some h)
    (hpre : ∀ f ∈ files, (fs.read f.path).isSome) :
    (stage2Pairs hashFn fs (scanBySize files)).countP (fun p => p.1 == k)
      = (bigMembers files).countP (fun f => skey hashFn fs f == some k) := by
  rw [stage2Pairs_countP_sum]
  have hmap : (scanBySize files).map (fun g => if g.2.length < 2 then 0
        else (routePairs hashFn fs g.2).countP (fun p => p.1 == k))
      = ((scanBySize files).map (fun g => g.1)).map (fun s =>
          files.countP (fun f =>
            ((skey hashFn fs f == some k)
              && decide (2 ≤ files.countP (fun g => g.size == f.size)))
              && f.size == s)) := by
    rw [List.map_map]
    apply List.map_congr_left
    intro g hg
    obtain ⟨s, l⟩ := g
    obtain ⟨hne, hl⟩ := (scanBySize_mem files s l).mp hg
    subst hl
    show (if (files.filter (fun f => f.size == s)).length < 2 then 0
        else (routePairs hashFn fs (files.filter (fun f => f.size == s))).countP
          (fun p => p.1 == k))
      = files.countP (fun f =>
          ((skey hashFn fs f == some k)
            && decide (2 ≤ files.countP (fun g => g.size == f.size)))
            && f.size == s)
    have hlen : (files.filter (fun f => f.size == s)).length
        = files.countP (fun f => f.size == s) :=
      (List.countP_eq_length_filter _ _).symm
    rw [hlen, ← absorb_bigsize]
    by_cases hbig : files.countP (fun f => f.size == s) < 2
    · rw [if_pos hbig, if_pos hbig]
    · rw [if_neg hbig, if_neg hbig]
      rw [routePairs_countP hashFn fs _ k
        (fun f hf h hh => hacc f (List.mem_of_mem_filter hf) h hh)
        (fun f hf => hpre f (List.mem_of_mem_filter hf))]
      rw [List.countP_filter]
  rw [hmap, sum_countP_fibers files _ _ (scanBySize_keys_nodup files)]
  unfold bigMembers
  rw [List.countP_filter]
  apply List.countP_congr
  intro f hf
  have hk : ((scanBySize files).map (fun g => g.1)).contains f.size = true := by
    have : f.size ∈ (scanBySize files).map (fun g => g.1) :=
      List.mem_map.mpr ⟨(f.size, files.filter (fun g => g.size == f.size)),
        scanBySize_group_of_mem files f hf, rfl⟩
    simpa using this
  rw [hk]
  simp

/- ---------------------------------------------------------------------------
Library lemmas: bucket membership and origins.
--------------------------------------------------------------------------- -/

theorem foldGroups_nil_mem {α : Type} [DecidableEq α]
    (pairs : List (α × FileItem)) (k : α) (l : List FileItem) :
    (k, l) ∈ foldGroups pairs [] ↔
      pairs.filter (fun p => p.1 == k) ≠ [] ∧
        l = (pairs.filter (fun p => p.1 == k)).map (fun p => p.2) := by
  rw [mem_iff_groupLookup _ (foldGroups_keys_nodup _ [] (by simp)),
    foldGroups_lookup]
  have hinit : groupLookup k ([] : List (α × List FileItem)) = none := rfl
  rw [hinit]
  by_cases he : (pairs.filter (fun p => p.1 == k)).isEmpty
  · rw [if_pos he]
    rw [List.isEmpty_iff] at he
    constructor
    · intro h; cases h
    · intro ⟨hne, _⟩; exact absurd he hne
  · rw [if_neg he]
    rw [List.isEmpty_iff] at he
    constructor
    · intro h
      exact ⟨he, (Option.some.injEq _ _ ▸ h).symm ▸ rfl⟩
    · intro ⟨_, hl⟩
      rw [hl]

theorem foldGroups_nil_bucket_mem {α : Type} [DecidableEq α]
    (pairs : List (α × FileItem)) (k : α) (l : List FileItem)
    (hmem : (k, l) ∈ foldGroups pairs []) (f' : FileItem) :
    f' ∈ l ↔ (k, f') ∈ pairs := by
  obtain ⟨hne, hl⟩ := (foldGroups_nil_mem pairs k l).mp hmem
  subst hl
  constructor
  · intro hf'
    rcases List.mem_map.mp hf' with ⟨p, hp, hps⟩
    have hk := List.of_mem_filter hp
    rw [beq_iff_eq] at hk
    have hpe : p = (k, f') := by
      obtain ⟨p1, p2⟩ := p
      simp only [] at hps hk
      rw [hps, hk]
    exact hpe ▸ List.mem_of_mem_filter hp
  · intro hp
    exact List.mem_map.mpr ⟨(k, f'),
      List.mem_filter.mpr ⟨hp, by simp⟩, rfl⟩

theorem foldGroups_nil_bucket_of_pair {α : Type} [DecidableEq α]
    (pairs : List (α × FileItem)) (k : α) (f' : FileItem)
    (hp : (k, f') ∈ pairs) :
    ∃ l, (k, l) ∈ foldGroups pairs [] ∧ f' ∈ l ∧
      l.length = pairs.countP (fun p => p.1 == k) := by
  refine ⟨(pairs.filter (fun p => p.1 == k)).map (fun p => p.2), ?_, ?_, ?_⟩
  · apply (foldGroups_nil_mem pairs k _).mpr
    refine ⟨?_, rfl⟩
    intro h
    have : (k, f') ∈ pairs.filter (fun p => p.1 == k) :=
      List.mem_filter.mpr ⟨hp, by simp⟩
    rw [h] at this
    cases this
  · exact List.mem_map.mpr ⟨(k, f'),
      List.mem_filter.mpr ⟨hp, by simp⟩, rfl⟩
  · rw [List.length_map]
    exact (List.countP_eq_length_filter _ _).symm

theorem stage2Pairs_mem (hashFn : Int → Content → String) (fs : Fs) :
    ∀ (gs : List (Int × List FileItem)) (k : String) (f' : FileItem),
    (k, f') ∈ stage2Pairs hashFn fs gs →
    ∃ g ∈ gs, 2 ≤ g.2.length ∧ (k, f') ∈ routePairs hashFn fs g.2 := by
  intro gs
  induction gs with
  | nil => intro k f' h; cases h
  | cons g rest ih =>
    intro k f' h
    rcases List.mem_append.mp h with h1 | h2
    · by_cases hlen : g.2.length < 2
      · rw [if_pos hlen] at h1; cases h1
      · rw [if_neg hlen] at h1
        exact ⟨g, List.mem_cons_self g rest, by omega, h1⟩
    · obtain ⟨g', hg', hlen', hr'⟩ := ih k f' h2
      exact ⟨g', List.mem_cons_of_mem g hg', hlen', hr'⟩

theorem stage2Pairs_mem_of (hashFn : Int → Content → String) (fs : Fs) :
    ∀ (gs : List (Int × List FileItem)) (g : Int × List FileItem),
    g ∈ gs → 2 ≤ g.2.length →
    ∀ p ∈ routePairs hashFn fs g.2, p ∈ stage2Pairs hashFn fs gs := by
  intro gs
  induction gs with
  | nil => intro g hg; cases hg
  | cons g0 rest ih =>
    intro g hg hlen p hp
    rcases List.mem_cons.mp hg with he | hr
    · subst he
      apply List.mem_append.mpr
      left
      rw [if_neg (by omega)]
      exact hp
    · exact List.mem_append.mpr (Or.inr (ih g hr hlen p hp))

theorem routePairs_mem (hashFn : Int → Content → String) (fs : Fs)
    (group : List FileItem) (k : String) (f' : FileItem)
    (h : (k, f') ∈ routePairs hashFn fs group) :
    ∃ f ∈ group, f'.guid = f.guid ∧ f'.path = f.path ∧ f'.size = f.size ∧
      (f.hash = some k ∧ f' = f ∨
       f.hash = none ∧ ∃ c, fs.read f.path = some c ∧ k = hashFn f.size c ∧
         f' = withHash f k) := by
  unfold routePairs at h
  rcases List.mem_append.mp h with hc | hh
  · rcases List.mem_map.mp hc with ⟨f, hf, hpair⟩
    rw [Prod.mk.injEq] at hpair
    obtain ⟨hk, hf'⟩ := hpair
    have hfs := List.of_mem_filter hf
    obtain ⟨h0, hh0⟩ := Option.isSome_iff_exists.mp hfs
    have hkh : f.hash = some k := by
      rw [hh0] at hk ⊢
      simp only [Option.getD_some] at hk
      rw [hk]
    subst hf'
    exact ⟨f, List.mem_of_mem_filter hf, rfl, rfl, rfl, Or.inl ⟨hkh, rfl⟩⟩
  · rcases List.mem_filterMap.mp hh with ⟨f, hf, hjob⟩
    have hfn : f.hash = none := by
      have hns := List.of_mem_filter hf
      cases hcs : f.hash with
      | none => rfl
      | some h0 => rw [hcs] at hns; simp at hns
    unfold hashJob at hjob
    rw [hfn] at hjob
    cases hread : fs.read f.path with
    | none => rw [hread] at hjob; cases hjob
    | some c =>
      rw [hread] at hjob
      simp only [Option.map_some'] at hjob
      rw [Option.some.injEq, Prod.mk.injEq] at hjob
      obtain ⟨hk, hf'⟩ := hjob
      refine ⟨f, List.mem_of_mem_filter hf, ?_, ?_, ?_,
        Or.inr ⟨hfn, c, hread, hk.symm, ?_⟩⟩
      · rw [← hf']; rfl
      · rw [← hf']; rfl
      · rw [← hf']; rfl
      · rw [← hf', ← hk]

theorem routePairs_mem_of (hashFn : Int → Content → String) (fs : Fs)
    (group : List FileItem) (f : FileItem) (c : Content)
    (hf : f ∈ group) (hc : fs.read f.path = some c)
    (hacc : ∀ h, f.hash = some h → skey hashFn fs f = some h) :
    ∃ f', (hashFn f.size c, f') ∈ routePairs hashFn fs group ∧
      f'.guid = f.guid ∧ f'.path = f.path ∧ f'.size = f.size := by
  unfold routePairs
  cases hh : f.hash with
  | some h0 =>
    have hsk := hacc h0 hh
    unfold skey at hsk
    rw [hc] at hsk
    simp only [Option.map_some', Option.some.injEq] at hsk
    refine ⟨f, ?_, rfl, rfl, rfl⟩
    apply List.mem_append.mpr
    left
    apply List.mem_map.mpr
    refine ⟨f, List.mem_filter.mpr ⟨hf, by rw [hh]; rfl⟩, ?_⟩
    rw [hh]
    simp only [Option.getD_some]
    rw [hsk]
  | none =>
    refine ⟨withHash f (hashFn f.size c), ?_, rfl, rfl, rfl⟩
    apply List.mem_append.mpr
    right
    apply List.mem_filterMap.mpr
    refine ⟨f, List.mem_filter.mpr ⟨hf, by rw [hh]; rfl⟩, ?_⟩
    unfold hashJob
    rw [hh, hc]
    rfl

theorem bucket_member_origin (hashFn : Int → Content → String) (fs : Fs)
    (files : List FileItem) (k : String) (l : List FileItem) (f' : FileItem)
    (hmem : (k, l) ∈ foldGroups (stage2Pairs hashFn fs (scanBySize files)) [])
    (hf' : f' ∈ l) :
    ∃ f ∈ files, f'.guid = f.guid ∧ f'.path = f.path ∧ f'.size = f.size ∧
      2 ≤ files.countP (fun g => g.size == f.size) ∧
      (f.hash = some k ∨ ∃ c, fs.read f.path = some c ∧ k = hashFn f.size c) := by
  have hpair := (foldGroups_nil_bucket_mem _ k l hmem f').mp hf'
  obtain ⟨g, hg, hglen, hroute⟩ := stage2Pairs_mem hashFn fs _ k f' hpair
  obtain ⟨s, gl⟩ := g
  obtain ⟨_, hgl⟩ := (scanBySize_mem files s gl).mp hg
  subst hgl
  obtain ⟨f, hfg, hguid, hpath, hsize, hbranch⟩ :=
    routePairs_mem hashFn fs _ k f' hroute
  have hffiles := List.mem_of_mem_filter hfg
  have hfsize : f.size = s := by
    have := List.of_mem_filter hfg
    rwa [beq_iff_eq] at this
  have hcnt : 2 ≤ files.countP (fun g => g.size == f.size) := by
    rw [hfsize]
    have := hglen
    simp only [] at this
    rw [List.countP_eq_length_filter]
    exact this
  refine ⟨f, hffiles, hguid, hpath, hsize, hcnt, ?_⟩
  rcases hbranch with ⟨hk, _⟩ | ⟨_, c, hc, hkc, _⟩
  · exact Or.inl hk
  · exact Or.inr ⟨c, hc, hkc⟩

theorem bucket_member_skey (hashFn : Int → Content → String) (fs : Fs)
    (files : List FileItem) (k : String) (l : List FileItem) (f' : FileItem)
    (hacc : ∀ f ∈ files, ∀ h, f.hash = some h → skey hashFn fs f = some h)
    (hmem : (k, l) ∈ foldGroups (stage2Pairs hashFn fs (scanBySize files)) [])
    (hf' : f' ∈ l) :
    ∃ f ∈ files, f'.guid = f.guid ∧ f'.path = f.path ∧ f'.size = f.size ∧
      2 ≤ files.countP (fun g => g.size == f.size) ∧
      skey hashFn fs f = some k := by
  obtain ⟨f, hf, hguid, hpath, hsize, hcnt, hbranch⟩ :=
    bucket_member_origin hashFn fs files k l f' hmem hf'
  refine ⟨f, hf, hguid, hpath, hsize, hcnt, ?_⟩
  rcases hbranch with hk | ⟨c, hc, hkc⟩
  · exact hacc f hf k hk
  · unfold skey
    rw [hc, hkc]
    rfl

theorem bucket_all_read (hashFn : Int → Content → String) (fs : Fs)
    (files : List FileItem) (k : String) (l : List FileItem)
    (hacc : ∀ f ∈ files, ∀ h, f.hash = some h → skey hashFn fs f = some h)
    (hinj : ∀ f1 ∈ files, ∀ f2 ∈ files,
      skey hashFn fs f1 = skey hashFn fs f2 → fs.read f1.path = fs.read f2.path)
    (hmem : (k, l) ∈ foldGroups (stage2Pairs hashFn fs (scanBySize files)) [])
    (f0 : FileItem) (hf0 : f0 ∈ l) :
    ∃ c, ∀ f' ∈ l, fs.read f'.path = some c := by
  obtain ⟨g0, hg0, _, _, _, _, hsk0⟩ :=
    bucket_member_skey hashFn fs files k l f0 hacc hmem hf0
  have hread0 : ∃ c0, fs.read g0.path = some c0 := by
    unfold skey at hsk0
    cases hr : fs.read g0.path with
    | none => rw [hr] at hsk0; cases hsk0
    | some c0 => exact ⟨c0, rfl⟩
  obtain ⟨c0, hread0⟩ := hread0
  refine ⟨c0, ?_⟩
  intro f' hf'
  obtain ⟨f, hf, _, hpath, _, _, hsk⟩ :=
    bucket_member_skey hashFn fs files k l f' hacc hmem hf'
  have hreads : fs.read f.path = fs.read g0.path :=
    hinj f hf g0 hg0 (by rw [hsk, hsk0])
  rw [hpath, hreads, hread0]

/- ---------------------------------------------------------------------------
Library lemmas: the scan's confirmed guids, order-free.
--------------------------------------------------------------------------- -/

theorem scan_member_iff_dupePred (hashFn : Int → Content → String) (fs : Fs)
    (sampleSize : Nat) (rng : String → Nat → Nat) (files : List FileItem)
    (hpre : ∀ f ∈ files, (fs.read f.path).isSome = true)
    (hacc : ∀ f ∈ files, ∀ h, f.hash = some h → skey hashFn fs f = some h)
    (hinj : ∀ f1 ∈ files, ∀ f2 ∈ files,
      skey hashFn fs f1 = skey hashFn fs f2 → fs.read f1.path = fs.read f2.path)
    (g : String) :
    memberOfSomeGroup (scanForDuplicates hashFn fs sampleSize rng files).1 g ↔
      dupePred hashFn fs files g := by
  rw [memberOfSomeGroup_iff]
  constructor
  · rintro ⟨k, l, hmem, hlen2, r, hfind, hg⟩
    have hne : l ≠ [] := by
      intro h; rw [h] at hlen2; simp at hlen2
    obtain ⟨f0, hf0⟩ := List.exists_mem_of_ne_nil l hne
    obtain ⟨c, hall⟩ :=
      bucket_all_read hashFn fs files k l hacc hinj hmem f0 hf0
    have hfind' := findDup_of_all_read_eq fs sampleSize rng k l c hlen2 hall
    rw [hfind'] at hfind
    have hr : r = ⟨k, l.map (fun f => f.guid)⟩ := by
      cases hfind; rfl
    subst hr
    rcases List.mem_map.mp hg with ⟨f', hf'l, hf'g⟩
    obtain ⟨f, hf, hguid, hpath, hsize, hcnt, hsk⟩ :=
      bucket_member_skey hashFn fs files k l f' hacc hmem hf'l
    refine ⟨f, hf, by rw [← hguid, hf'g], ?_, hcnt, ?_⟩
    · refine ⟨c, ?_⟩
      rw [← hpath]
      exact hall f' hf'l
    · rw [hsk]
      rw [← stage2Pairs_countP hashFn fs files k hacc hpre]
      obtain ⟨_, hl⟩ :=
        (foldGroups_nil_mem (stage2Pairs hashFn fs (scanBySize files)) k l).mp hmem
      have hlenc : l.length
          = (stage2Pairs hashFn fs (scanBySize files)).countP (fun p => p.1 == k) := by
        rw [hl, List.length_map]
        exact (List.countP_eq_length_filter _ _).symm
      omega
  · rintro ⟨f, hf, hguid, ⟨c, hc⟩, hcnt, hcnt2⟩
    have hsk : skey hashFn fs f = some (hashFn f.size c) := by
      unfold skey; rw [hc]; rfl
    obtain ⟨f', hpair, hguid', hpath', hsize'⟩ :=
      routePairs_mem_of hashFn fs (files.filter (fun g => g.size == f.size)) f c
        (List.mem_filter.mpr ⟨hf, by simp⟩) hc (fun h hh => hacc f hf h hh)
    have hgrp := scanBySize_group_of_mem files f hf
    have hgrplen : 2 ≤ (files.filter (fun g => g.size == f.size)).length := by
      rw [← List.countP_eq_length_filter]
      exact hcnt
    have hpairs : (hashFn f.size c, f') ∈ stage2Pairs hashFn fs (scanBySize files) :=
      stage2Pairs_mem_of hashFn fs (scanBySize files)
        (f.size, files.filter (fun g => g.size == f.size)) hgrp hgrplen _ hpair
    obtain ⟨l, hbucket, hf'l, hlenc⟩ :=
      foldGroups_nil_bucket_of_pair _ (hashFn f.size c) f' hpairs
    have hlen2 : 2 ≤ l.length := by
      rw [hlenc, stage2Pairs_countP hashFn fs files _ hacc hpre]
      rw [hsk] at hcnt2
      exact hcnt2
    obtain ⟨c', hall⟩ :=
      bucket_all_read hashFn fs files _ l hacc hinj hbucket f' hf'l
    refine ⟨hashFn f.size c, l, hbucket, hlen2,
      ⟨hashFn f.size c, l.map (fun x => x.guid)⟩,
      findDup_of_all_read_eq fs sampleSize rng _ l c' hlen2 hall, ?_⟩
    apply List.mem_map.mpr
    exact ⟨f', hf'l, by rw [hguid', hguid]⟩

/- ---------------------------------------------------------------------------
Library lemmas: the catalog after a scan.
--------------------------------------------------------------------------- -/

theorem applyOne_core (hashFn : Int → Content → String) (fs : Fs)
    (files : List FileItem) (f : FileItem) :
    (applyOne hashFn fs files f).guid = f.guid ∧
    (applyOne hashFn fs files f).path = f.path ∧
    (applyOne hashFn fs files f).size = f.size := by
  unfold applyOne
  split
  · split <;> exact ⟨rfl, rfl, rfl⟩
  · exact ⟨rfl, rfl, rfl⟩

theorem skey_applyOne (hashFn : Int → Content → String) (fs : Fs)
    (files : List FileItem) (f : FileItem) :
    skey hashFn fs (applyOne hashFn fs files f) = skey hashFn fs f := by
  obtain ⟨_, hp, hs⟩ := applyOne_core hashFn fs files f
  unfold skey
  rw [hp, hs]

theorem sizeCount_apply (hashFn : Int → Content → String) (fs : Fs)
    (files : List FileItem) (s : Int) :
    (applyScanHashes hashFn fs files).countP (fun g => g.size == s)
      = files.countP (fun g => g.size == s) := by
  unfold applyScanHashes
  rw [List.countP_map]
  apply List.countP_congr
  intro f _
  show ((applyOne hashFn fs files f).size == s) = true ↔ (f.size == s) = true
  rw [(applyOne_core hashFn fs files f).2.2]

theorem applyOne_hash_some (hashFn : Int → Content → String) (fs : Fs)
    (files : List FileItem) (f : FileItem)
    (hbig : 2 ≤ files.countP (fun g => g.size == f.size))
    (hread : (fs.read f.path).isSome = true) :
    (applyOne hashFn fs files f).hash.isSome = true := by
  unfold applyOne
  by_cases hn : f.hash = none
  · rw [if_pos ⟨hbig, hn⟩]
    obtain ⟨c, hc⟩ := Option.isSome_iff_exists.mp hread
    rw [hc]
    rfl
  · rw [if_neg (fun hand => hn hand.2)]
    cases hcs : f.hash with
    | none => exact absurd hcs hn
    | some h => rfl

theorem applyOne_hash_cases (hashFn : Int → Content → String) (fs : Fs)
    (files : List FileItem) (f : FileItem) :
    (applyOne hashFn fs files f).hash = f.hash ∨
    (f.hash = none ∧ ∃ c, fs.read f.path = some c ∧
      (applyOne hashFn fs files f).hash = some (hashFn f.size c)) := by
  unfold applyOne
  split
  · rename_i hcond
    split
    · rename_i c hc
      exact Or.inr ⟨hcond.2, c, hc, rfl⟩
    · exact Or.inl rfl
  · exact Or.inl rfl

theorem hacc_applyScanHashes (hashFn : Int → Content → String) (fs : Fs)
    (files : List FileItem)
    (hacc : ∀ f ∈ files, ∀ h, f.hash = some h → skey hashFn fs f = some h) :
    ∀ f2 ∈ applyScanHashes hashFn fs files, ∀ h, f2.hash = some h →
      skey hashFn fs f2 = some h := by
  intro f2 hf2 h hh
  rcases List.mem_map.mp hf2 with ⟨f, hf, hfe⟩
  subst hfe
  rw [skey_applyOne]
  rcases applyOne_hash_cases hashFn fs files f with he | ⟨_, c, hc, hsome⟩
  · rw [he] at hh
    exact hacc f hf h hh
  · rw [hsome] at hh
    have heq : hashFn f.size c = h := by injection hh
    unfold skey
    rw [hc, ← heq]
    rfl

theorem hpre_applyScanHashes (hashFn : Int → Content → String) (fs : Fs)
    (files : List FileItem)
    (hpre : ∀ f ∈ files, (fs.read f.path).isSome = true) :
    ∀ f2 ∈ applyScanHashes hashFn fs files, (fs.read f2.path).isSome = true := by
  intro f2 hf2
  rcases List.mem_map.mp hf2 with ⟨f, hf, hfe⟩
  subst hfe
  rw [(applyOne_core hashFn fs files f).2.1]
  exact hpre f hf

theorem hinj_applyScanHashes (hashFn : Int → Content → String) (fs : Fs)
    (files : List FileItem)
    (hinj : ∀ f1 ∈ files, ∀ f2 ∈ files,
      skey hashFn fs f1 = skey hashFn fs f2 → fs.read f1.path = fs.read f2.path) :
    ∀ f1 ∈ applyScanHashes hashFn fs files, ∀ f2 ∈ applyScanHashes hashFn fs files,
      skey hashFn fs f1 = skey hashFn fs f2 → fs.read f1.path = fs.read f2.path := by
  intro f1 hf1 f2 hf2 hsk
  rcases List.mem_map.mp hf1 with ⟨g1, hg1, hge1⟩
  rcases List.mem_map.mp hf2 with ⟨g2, hg2, hge2⟩
  subst hge1
  subst hge2
  rw [skey_applyOne, skey_applyOne] at hsk
  rw [(applyOne_core hashFn fs files g1).2.1, (applyOne_core hashFn fs files g2).2.1]
  exact hinj g1 hg1 g2 hg2 hsk

theorem bigCount_applyScanHashes (hashFn : Int → Content → String) (fs : Fs)
    (files : List FileItem) (t : Option String) :
    (bigMembers (applyScanHashes hashFn fs files)).countP
        (fun f' => skey hashFn fs f' == t)
      = (bigMembers files).countP (fun f' => skey hashFn fs f' == t) := by
  unfold bigMembers
  rw [List.countP_filter, List.countP_filter]
  unfold applyScanHashes
  rw [List.countP_map]
  apply List.countP_congr
  intro f _
  show ((fun f' => (skey hashFn fs f' == t)
      && decide (2 ≤ (List.map (applyOne hashFn fs files) files).countP
        (fun g => g.size == f'.size))) (applyOne hashFn fs files f)) = true ↔ _
  have h1 := skey_applyOne hashFn fs files f
  have h2 := (applyOne_core hashFn fs files f).2.2
  have h3 : (List.map (applyOne hashFn fs files) files).countP
      (fun g => g.size == (applyOne hashFn fs files f).size)
      = files.countP (fun g => g.size == f.size) := by
    rw [h2, List.countP_map]
    apply List.countP_congr
    intro f' _
    show ((applyOne hashFn fs files f').size == f.size) = true ↔ (f'.size == f.size) = true
    rw [(applyOne_core hashFn fs files f').2.2]
  show ((skey hashFn fs (applyOne hashFn fs files f) == t)
      && decide (2 ≤ (List.map (applyOne hashFn fs files) files).countP
        (fun g => g.size == (applyOne hashFn fs files f).size))) = true ↔ _
  rw [h1, h3]

theorem dupePred_applyScanHashes (hashFn : Int → Content → String) (fs : Fs)
    (files : List FileItem) (g : String) :
    dupePred hashFn fs files g ↔
      dupePred hashFn fs (applyScanHashes hashFn fs files) g := by
  unfold dupePred
  constructor
  · rintro ⟨f, hf, hguid, ⟨c, hc⟩, hcnt, hcnt2⟩
    refine ⟨applyOne hashFn fs files f, List.mem_map.mpr ⟨f, hf, rfl⟩, ?_, ?_, ?_, ?_⟩
    · rw [(applyOne_core hashFn fs files f).1, hguid]
    · exact ⟨c, by rw [(applyOne_core hashFn fs files f).2.1]; exact hc⟩
    · rw [(applyOne_core hashFn fs files f).2.2, sizeCount_apply]
      exact hcnt
    · rw [skey_applyOne, bigCount_applyScanHashes]
      exact hcnt2
  · rintro ⟨f2, hf2, hguid, ⟨c, hc⟩, hcnt, hcnt2⟩
    rcases List.mem_map.mp hf2 with ⟨f, hf, hfe⟩
    subst hfe
    refine ⟨f, hf, ?_, ?_, ?_, ?_⟩
    · rw [← (applyOne_core hashFn fs files f).1]
      exact hguid
    · exact ⟨c, by rw [← (applyOne_core hashFn fs files f).2.1]; exact hc⟩
    · rw [(applyOne_core hashFn fs files f).2.2, sizeCount_apply] at hcnt
      exact hcnt
    · rw [skey_applyOne, bigCount_applyScanHashes] at hcnt2
      exact hcnt2

theorem stage2Updates_nil (hashFn : Int → Content → String) (fs : Fs) :
    ∀ gs : List (Int × List FileItem),
    (∀ g ∈ gs, ¬ g.2.length < 2 → g.2.filter (fun f => ! f.hash.isSome) = []) →
    stage2Updates hashFn fs gs = [] := by
  intro gs
  induction gs with
  | nil => intro _; rfl
  | cons g rest ih =>
    intro h
    show (if g.2.length < 2 then [] else _) ++ _ = []
    rw [ih (fun g' hg' => h g' (List.mem_cons_of_mem g hg'))]
    by_cases hl : g.2.length < 2
    · rw [if_pos hl]
      rfl
    · rw [if_neg hl, h g (List.mem_cons_self g rest) hl]
      rfl

theorem scan_second_run_updates_nil (hashFn : Int → Content → String) (fs : Fs)
    (sampleSize : Nat) (rng : String → Nat → Nat) (files : List FileItem)
    (hpre : ∀ f ∈ files, (fs.read f.path).isSome = true) :
    (scanForDuplicates hashFn fs sampleSize rng
      (applyScanHashes hashFn fs files)).2 = [] := by
  rw [scan_updates_eq]
  apply stage2Updates_nil
  intro g hg hlen
  obtain ⟨s, l⟩ := g
  obtain ⟨_, hl⟩ := (scanBySize_mem _ s l).mp hg
  subst hl
  apply List.filter_eq_nil_iff.mpr
  intro f2 hf2
  have hf2F := List.mem_of_mem_filter hf2
  have hf2s : f2.size = s := by
    have := List.of_mem_filter hf2
    rwa [beq_iff_eq] at this
  rcases List.mem_map.mp hf2F with ⟨f, hf, hfe⟩
  have hbig : 2 ≤ files.countP (fun g => g.size == f.size) := by
    have hlen2 : 2 ≤ ((applyScanHashes hashFn fs files).filter
        (fun g => g.size == s)).length := by
      simp only [] at hlen
      omega
    rw [← List.countP_eq_length_filter] at hlen2
    rw [sizeCount_apply] at hlen2
    have hfs : f.size = s := by
      rw [← (applyOne_core hashFn fs files f).2.2, hfe, hf2s]
    rw [hfs]
    exact hlen2
  have hsome := applyOne_hash_some hashFn fs files f hbig (hpre f hf)
  rw [hfe] at hsome
  rw [hsome]
  simp

/- ---------------------------------------------------------------------------
Claim C1.
--------------------------------------------------------------------------- -/

/-- C1: the claim states that with a configured sample size of 0, or a file
size at most the sample size, `compareFilesBinarySampleSize` behaves as the
exact full byte comparison.  The code refutes it: with sample size 0 it draws
no positions at all and reports two equal-sized but different files
identical, and with file size ≤ sample size it draws size-many positions with
replacement, which can also miss every differing byte — here files 0x00,0x01
vs 0x00,0x02 compared with sample size 2 and draws hitting position 0 twice.
`CompareFilesBinary`, the exact comparison the claim appeals to, answers
`some false` on both pairs.  (The README promises byte-by-byte verification,
and a commented-out earlier version of the function fell back to
`CompareFilesBinary`; the active code dropped that fallback.) -/
theorem C1_sampled_compare_not_exact :
    compareFilesBinarySampleSize (Fs.mk [("/a/x", [0], 0), ("/a/y", [1], 0)])
        "/a/x" "/a/y" 0 (fun _ => 0) = some true
  ∧ CompareFilesBinary (Fs.mk [("/a/x", [0], 0), ("/a/y", [1], 0)])
        "/a/x" "/a/y" = some false
  ∧ compareFilesBinarySampleSize (Fs.mk [("/b/x", [0, 1], 0), ("/b/y", [0, 2], 0)])
        "/b/x" "/b/y" 2 (fun _ => 0) = some true
  ∧ CompareFilesBinary (Fs.mk [("/b/x", [0, 1], 0), ("/b/y", [0, 2], 0)])
        "/b/x" "/b/y" = some false := by
  refine ⟨by decide, ?_, by decide, ?_⟩ <;>
    simp [CompareFilesBinary, Fs.read, compareFilesBinaryLoop_eq, List.find?]

/- ---------------------------------------------------------------------------
Claim C2.
--------------------------------------------------------------------------- -/

/-- C2: the claim states that when the commit of a batched mutation fails the
operation returns an error and the in-memory map is unchanged.  `Purge`
refutes the second half: it deletes records from the in-memory map while
executing the DELETE statements, before `tx.Commit()` runs, so a failing
commit returns the error with the map already mutated.  Here a catalog with
one record whose file is gone is purged against a store whose commit fails:
the error is returned, yet the record has vanished from memory. -/
theorem C2_purge_commit_failure_leaves_memory_mutated :
    purge (Fs.mk []) false
        [("/gone", ⟨"/gone", "/gone", "txt", 1, 0, none, "1 B"⟩)]
      = ([], Except.error "failed to commit transaction for purge")
  ∧ ([] : List (String × FileItem))
      ≠ [("/gone", ⟨"/gone", "/gone", "txt", 1, 0, none, "1 B"⟩)] := by
  exact ⟨rfl, by decide⟩

/- ---------------------------------------------------------------------------
Claim C3.
--------------------------------------------------------------------------- -/

/-- C3: the claim states that every operation removing a FileRecord also
removes its duplicates-table row, so no duplicates row ever references an
absent files row.  The code refutes it: `ClearIndex` deletes only from
`files` (its own Todo comment asks whether the duplicates table should also
be cleared), `ForgetDuplicates` deletes only the files rows, and `Purge`
deletes only files rows; SQLite does not enforce the declared foreign key
because `PRAGMA foreign_keys` is never enabled.  Starting from a consistent
store with one record and its membership row, each operation leaves the
membership row dangling. -/
theorem C3_removal_leaves_dangling_duplicate_rows :
    danglingDuplicates (Tables.mk [⟨"/d/f", "/d/f", "f", 1, 0, some "h", "1 B"⟩]
        [⟨"/d/f", 5⟩]) = []
  ∧ danglingDuplicates (clearIndexTables
      (Tables.mk [⟨"/d/f", "/d/f", "f", 1, 0, some "h", "1 B"⟩] [⟨"/d/f", 5⟩]))
      = [⟨"/d/f", 5⟩]
  ∧ danglingDuplicates (forgetDuplicatesTables
      (Tables.mk [⟨"/d/f", "/d/f", "f", 1, 0, some "h", "1 B"⟩] [⟨"/d/f", 5⟩]))
      = [⟨"/d/f", 5⟩]
  ∧ danglingDuplicates (purgeTables (Fs.mk [])
      (Tables.mk [⟨"/d/f", "/d/f", "f", 1, 0, some "h", "1 B"⟩] [⟨"/d/f", 5⟩]))
      = [⟨"/d/f", 5⟩] := by
  exact ⟨rfl, rfl, rfl, rfl⟩

/- ---------------------------------------------------------------------------
Claim C4.
--------------------------------------------------------------------------- -/

/-- C4 counterexample: the claim states that for a fixed filesystem and
catalog, two successive `ScanForDuplicates` runs yield the same duplicate
group memberships, the second reusing cached hashes.  The sampled comparison
refutes it: two equal-sized records carrying the same cached hash but
differing at byte 1 (a stale-hash state the catalog permits, since hashes are
only recomputed when size or mtime changes).  Both runs reuse the cached
hashes (the first computes none, so the catalog is unchanged); with sample
size 1 the first run draws offset 0 and confirms the pair, the second draws
offset 1 and confirms nothing — the membership sets differ. -/
theorem C4_second_scan_can_differ :
    (scanForDuplicates (fun _ _ => "u")
        (Fs.mk [("/x", [0, 0], 0), ("/y", [0, 1], 0)]) 1 (fun _ _ => 0)
        [⟨"/x", "/x", "", 2, 0, some "h", "2 B"⟩,
         ⟨"/y", "/y", "", 2, 0, some "h", "2 B"⟩]).1
      = [⟨"h", ["/x", "/y"]⟩]
  ∧ applyScanHashes (fun _ _ => "u")
        (Fs.mk [("/x", [0, 0], 0), ("/y", [0, 1], 0)])
        [⟨"/x", "/x", "", 2, 0, some "h", "2 B"⟩,
         ⟨"/y", "/y", "", 2, 0, some "h", "2 B"⟩]
      = [⟨"/x", "/x", "", 2, 0, some "h", "2 B"⟩,
         ⟨"/y", "/y", "", 2, 0, some "h", "2 B"⟩]
  ∧ (scanForDuplicates (fun _ _ => "u")
        (Fs.mk [("/x", [0, 0], 0), ("/y", [0, 1], 0)]) 1 (fun _ _ => 1)
        [⟨"/x", "/x", "", 2, 0, some "h", "2 B"⟩,
         ⟨"/y", "/y", "", 2, 0, some "h", "2 B"⟩]).1
      = [] := by
  exact ⟨by decide, by decide, by decide⟩

/-- C4 amended: if every record's file is readable, every cached hash is
accurate (it equals the digest of the file's current content), and the digest
is collision-free over the catalog (equal semantic keys force equal
contents), then a second `ScanForDuplicates` on the post-scan catalog
confirms exactly the same guids as the first — whatever positions either
run's sampled comparisons draw — and the second run computes no new hashes
(its hash-update batch is empty), reusing the ones cached by the first. -/
theorem C4_scan_idempotent_membership (hashFn : Int → Content → String)
    (fs : Fs) (sampleSize : Nat) (rng1 rng2 : String → Nat → Nat)
    (files : List FileItem)
    (hpre : ∀ f ∈ files, (fs.read f.path).isSome = true)
    (hacc : ∀ f ∈ files, f.hash.isSome = true → skey hashFn fs f = f.hash)
    (hinj : ∀ f1 ∈ files, ∀ f2 ∈ files,
      skey hashFn fs f1 = skey hashFn fs f2 → fs.read f1.path = fs.read f2.path) :
    (∀ g, memberOfSomeGroup (scanForDuplicates hashFn fs sampleSize rng1 files).1 g ↔
        memberOfSomeGroup (scanForDuplicates hashFn fs sampleSize rng2
          (applyScanHashes hashFn fs files)).1 g)
  ∧ (scanForDuplicates hashFn fs sampleSize rng2
      (applyScanHashes hashFn fs files)).2 = [] := by
  have hacc' : ∀ f ∈ files, ∀ h, f.hash = some h → skey hashFn fs f = some h := by
    intro f hf h hh
    have hs := hacc f hf (by rw [hh]; rfl)
    rw [hh] at hs
    exact hs
  constructor
  · intro g
    rw [scan_member_iff_dupePred hashFn fs sampleSize rng1 files hpre hacc' hinj g,
      scan_member_iff_dupePred hashFn fs sampleSize rng2 _
        (hpre_applyScanHashes hashFn fs files hpre)
        (hacc_applyScanHashes hashFn fs files hacc')
        (hinj_applyScanHashes hashFn fs files hinj) g]
    exact dupePred_applyScanHashes hashFn fs files g
  · exact scan_second_run_updates_nil hashFn fs sampleSize rng2 files hpre

/-- C4 witness: two readable unhashed records with identical one-byte
contents; after the first scan confirms them and caches the hashes, a second
scan with different sampling draws confirms the same guid and queues no
updates. -/
theorem C4_scan_idempotent_membership_witness :
    (memberOfSomeGroup (scanForDuplicates (fun _ _ => "k")
        (Fs.mk [("/x", [0], 0), ("/y", [0], 0)]) 0 (fun _ _ => 0)
        [⟨"/x", "/x", "", 1, 0, none, "1 B"⟩,
         ⟨"/y", "/y", "", 1, 0, none, "1 B"⟩]).1 "/x" ↔
      memberOfSomeGroup (scanForDuplicates (fun _ _ => "k")
        (Fs.mk [("/x", [0], 0), ("/y", [0], 0)]) 0 (fun _ _ => 1)
        (applyScanHashes (fun _ _ => "k")
          (Fs.mk [("/x", [0], 0), ("/y", [0], 0)])
          [⟨"/x", "/x", "", 1, 0, none, "1 B"⟩,
           ⟨"/y", "/y", "", 1, 0, none, "1 B"⟩])).1 "/x")
  ∧ (scanForDuplicates (fun _ _ => "k")
      (Fs.mk [("/x", [0], 0), ("/y", [0], 0)]) 0 (fun _ _ => 1)
      (applyScanHashes (fun _ _ => "k")
        (Fs.mk [("/x", [0], 0), ("/y", [0], 0)])
        [⟨"/x", "/x", "", 1, 0, none, "1 B"⟩,
         ⟨"/y", "/y", "", 1, 0, none, "1 B"⟩])).2 = [] := by
  have h := C4_scan_idempotent_membership (fun _ _ => "k")
    (Fs.mk [("/x", [0], 0), ("/y", [0], 0)]) 0 (fun _ _ => 0) (fun _ _ => 1)
    [⟨"/x", "/x", "", 1, 0, none, "1 B"⟩,
     ⟨"/y", "/y", "", 1, 0, none, "1 B"⟩]
    (by decide) (by decide) (by decide)
  exact ⟨h.1 "/x", h.2⟩

/- ---------------------------------------------------------------------------
Claim C5.
--------------------------------------------------------------------------- -/

/-- C5 counterexample: the claim states that any two identities confirmed in
one ResultGroup have equal record sizes.  Hash buckets are keyed by hash
alone, across size groups, so a catalog whose stored sizes are stale can mix
sizes: records a1, a2 carry size 5 and records b1, b2 size 3, all four carry the
same cached hash and identical 3-byte on-disk contents; the scan confirms the
four records in one group although a1 and b1 disagree in record size. -/
theorem C5_confirmed_group_can_mix_record_sizes :
    (scanForDuplicates (fun _ _ => "u")
        (Fs.mk [("/x", [7, 7, 7], 0), ("/y", [7, 7, 7], 0),
                ("/z", [7, 7, 7], 0), ("/w", [7, 7, 7], 0)]) 0 (fun _ _ => 0)
        [⟨"a1", "/x", "", 5, 0, some "h", "5 B"⟩,
         ⟨"a2", "/y", "", 5, 0, some "h", "5 B"⟩,
         ⟨"b1", "/z", "", 3, 0, some "h", "3 B"⟩,
         ⟨"b2", "/w", "", 3, 0, some "h", "3 B"⟩]).1
      = [⟨"h", ["a1", "a2", "b1", "b2"]⟩]
  ∧ ∃ f1 ∈ [⟨"a1", "/x", "", 5, 0, some "h", "5 B"⟩,
         ⟨"a2", "/y", "", 5, 0, some "h", "5 B"⟩,
         ⟨"b1", "/z", "", 3, 0, some "h", "3 B"⟩,
         (⟨"b2", "/w", "", 3, 0, some "h", "3 B"⟩ : FileItem)],
      ∃ f2 ∈ [⟨"a1", "/x", "", 5, 0, some "h", "5 B"⟩,
         ⟨"a2", "/y", "", 5, 0, some "h", "5 B"⟩,
         ⟨"b1", "/z", "", 3, 0, some "h", "3 B"⟩,
         (⟨"b2", "/w", "", 3, 0, some "h", "3 B"⟩ : FileItem)],
        f1.guid = "a1" ∧ f2.guid = "b1" ∧ f1.size ≠ f2.size := by
  exact ⟨by decide, by decide⟩

/-- C5 amended: provided each record's stored size matches its file's actual
on-disk length (no stale sizes) and guids are unique, any two identities
appearing together in one ResultGroup belong to records of equal size.
(Without the accuracy proviso the sizes of the on-disk contents are still
pairwise equal — the comparison stage enforces that — but the records' stored
sizes need not be.) -/
theorem C5_confirmed_pair_sizes_equal (hashFn : Int → Content → String)
    (fs : Fs) (sampleSize : Nat) (rng : String → Nat → Nat)
    (files : List FileItem) (r : ResultList) (g1 g2 : String)
    (f1 f2 : FileItem)
    (hsz : ∀ f ∈ files, (fs.read f.path).map (fun c => (c.length : Int))
      = (fs.read f.path).map (fun _ => f.size))
    (hnd : (files.map (fun f => f.guid)).Nodup)
    (hr : r ∈ (scanForDuplicates hashFn fs sampleSize rng files).1)
    (h1 : g1 ∈ r.FileGuids) (h2 : g2 ∈ r.FileGuids)
    (hf1 : f1 ∈ files) (hf2 : f2 ∈ files)
    (hg1 : f1.guid = g1) (hg2 : f2.guid = g2) :
    f1.size = f2.size := by
  rw [scan_results_eq] at hr
  rcases List.mem_filterMap.mp hr with ⟨⟨k, l⟩, hmem, heq⟩
  by_cases hlen : l.length < 2
  · rw [if_pos hlen] at heq
    cases heq
  rw [if_neg hlen] at heq
  obtain ⟨_, n, hmembers⟩ := findDup_guids_spec fs sampleSize rng k l r heq
  obtain ⟨f1', hf1l, hg1', c1, hc1, hlen1⟩ := hmembers g1 h1
  obtain ⟨f2', hf2l, hg2', c2, hc2, hlen2⟩ := hmembers g2 h2
  obtain ⟨fo1, hfo1, hguid1, hpath1, hsize1, _, _⟩ :=
    bucket_member_origin hashFn fs files k l f1' hmem hf1l
  obtain ⟨fo2, hfo2, hguid2, hpath2, hsize2, _, _⟩ :=
    bucket_member_origin hashFn fs files k l f2' hmem hf2l
  have he1 : fo1 = f1 :=
    List.inj_on_of_nodup_map hnd hfo1 hf1 (by rw [← hguid1, hg1', hg1])
  have he2 : fo2 = f2 :=
    List.inj_on_of_nodup_map hnd hfo2 hf2 (by rw [← hguid2, hg2', hg2])
  have hr1 : fs.read fo1.path = some c1 := by
    rw [← hpath1]; exact hc1
  have hr2 : fs.read fo2.path = some c2 := by
    rw [← hpath2]; exact hc2
  have hs1 : fo1.size = (c1.length : Int) := by
    have hm := hsz fo1 hfo1
    rw [hr1] at hm
    simp only [Option.map_some', Option.some.injEq] at hm
    rw [hm]
  have hs2 : fo2.size = (c2.length : Int) := by
    have hm := hsz fo2 hfo2
    rw [hr2] at hm
    simp only [Option.map_some', Option.some.injEq] at hm
    rw [hm]
  rw [← he1, ← he2, hs1, hs2, hlen1, hlen2]

/-- C5 witness: two accurate one-byte records confirmed in one group have
equal sizes. -/
theorem C5_confirmed_pair_sizes_equal_witness :
    (⟨"/x", "/x", "", 1, 0, none, "1 B"⟩ : FileItem).size
      = (⟨"/y", "/y", "", 1, 0, none, "1 B"⟩ : FileItem).size :=
  C5_confirmed_pair_sizes_equal (fun _ _ => "k")
    (Fs.mk [("/x", [0], 0), ("/y", [0], 0)]) 0 (fun _ _ => 0)
    [⟨"/x", "/x", "", 1, 0, none, "1 B"⟩, ⟨"/y", "/y", "", 1, 0, none, "1 B"⟩]
    ⟨"k", ["/x", "/y"]⟩ "/x" "/y"
    ⟨"/x", "/x", "", 1, 0, none, "1 B"⟩ ⟨"/y", "/y", "", 1, 0, none, "1 B"⟩
    (by decide) (by decide) (by decide) (by decide) (by decide)
    (by decide) (by decide) (by decide) (by decide)

/- ---------------------------------------------------------------------------
Claim C6.
--------------------------------------------------------------------------- -/

/-- C6 counterexample: the claim states MD5 is selected exactly when the file
size is strictly below 2 GiB and SHA-256 at or above.  The code tests
`fileSize > SizeThreshold`, so at exactly 2 GiB it selects MD5 although the
size is not strictly below the threshold. -/
theorem C6_md5_iff_strictly_below_threshold_false :
    ¬ (∀ sz : Int, calculateFileHashAlg sz = HashAlg.md5 ↔ sz < SizeThreshold) := by
  intro h
  have h1 : ((2 * 1024 * 1024 * 1024 : Int) < SizeThreshold) :=
    (h (2 * 1024 * 1024 * 1024)).mp (by decide)
  exact absurd h1 (by decide)

/-- C6 amended: `CalculateFileHash` selects MD5 exactly when the file size is
at most the fixed 2 GiB threshold, and SHA-256 exactly when the size is
strictly above it (FileUtils.go lines 18-24, matching the README's
"MD5 for files < 2GB, SHA-256 for larger files"). -/
theorem C6_alg_selected_by_threshold (sz : Int) :
    (calculateFileHashAlg sz = HashAlg.md5 ↔ sz ≤ SizeThreshold)
  ∧ (calculateFileHashAlg sz = HashAlg.sha256 ↔ SizeThreshold < sz) := by
  unfold calculateFileHashAlg SizeThreshold
  by_cases h : sz > (2 * 1024 * 1024 * 1024 : Int)
  · rw [if_pos h]
    exact ⟨⟨fun hmd => (by cases hmd), fun hle => absurd h (by omega)⟩,
           ⟨fun _ => h, fun _ => rfl⟩⟩
  · rw [if_neg h]
    exact ⟨⟨fun _ => (by omega), fun _ => rfl⟩,
           ⟨fun hsh => (by cases hsh), fun hlt => absurd hlt h⟩⟩

/- ---------------------------------------------------------------------------
Claim C7.
--------------------------------------------------------------------------- -/

theorem likeMatch_trailing_pct (lit : List Char) (hp : '%' ∉ lit) (hu : '_' ∉ lit) :
    ∀ s, likeMatch (lit ++ ['%']) s = true ↔
      lit.map foldAscii <+: s.map foldAscii := by
  induction lit with
  | nil =>
    intro s
    simp only [List.nil_append, List.map_nil]
    constructor
    · intro _
      exact List.nil_prefix
    · intro _
      show likeMatch ['%'] s = true
      have hstep : likeMatch ['%'] s = s.tails.any (fun t => likeMatch [] t) := by
        simp [likeMatch]
      rw [hstep, List.any_eq_true]
      refine ⟨[], (List.mem_tails [] s).mpr List.nil_suffix, ?_⟩
      simp [likeMatch]
  | cons c lit ih =>
    intro s
    have hc1 : c ≠ '%' := fun h => hp (h ▸ List.mem_cons_self c lit)
    have hc2 : c ≠ '_' := fun h => hu (h ▸ List.mem_cons_self c lit)
    have hp' : '%' ∉ lit := fun h => hp (List.mem_cons_of_mem c h)
    have hu' : '_' ∉ lit := fun h => hu (List.mem_cons_of_mem c h)
    cases s with
    | nil =>
      rw [List.cons_append]
      show likeMatch (c :: (lit ++ ['%'])) [] = true ↔ _
      simp only [likeMatch, if_neg hc1]
      simp
    | cons d s' =>
      rw [List.cons_append]
      show likeMatch (c :: (lit ++ ['%'])) (d :: s') = true ↔ _
      simp only [likeMatch, if_neg hc1]
      rw [List.map_cons, List.map_cons, List.cons_prefix_cons,
        Bool.and_eq_true, Bool.or_eq_true]
      have hcu : (c == '_') = false := beq_eq_false_iff_ne.mpr hc2
      rw [hcu]
      rw [ih hp' hu' s']
      simp

theorem likeMatch_remove_hit_iff (normalizedPath : String) (p : String)
    (hp : '%' ∉ normalizedPath.data) (hu : '_' ∉ normalizedPath.data) :
    ((p == normalizedPath || likeMatch (normalizedPath ++ "/%").data p.data) = true)
      ↔ (p = normalizedPath ∨
        (normalizedPath.data ++ ['/']).map foldAscii <+: p.data.map foldAscii) := by
  have hdata : (normalizedPath ++ "/%").data = (normalizedPath.data ++ ['/']) ++ ['%'] := by
    show (normalizedPath.data ++ ("/%").data) = _
    simp
  have hlit : '%' ∉ normalizedPath.data ++ ['/'] := by
    intro h
    rcases List.mem_append.mp h with h | h
    · exact hp h
    · simp at h
  have hlit' : '_' ∉ normalizedPath.data ++ ['/'] := by
    intro h
    rcases List.mem_append.mp h with h | h
    · exact hu h
    · simp at h
  rw [Bool.or_eq_true, beq_iff_eq, hdata,
    likeMatch_trailing_pct (normalizedPath.data ++ ['/']) hlit hlit' p.data]

/-- C7 counterexample: the claim states that `Remove(path)` deletes exactly the
records whose path equals, or is a descendant of, the normalized path and no
record outside that set.  Two behaviours of the SQL `LIKE` refute it: removing
`/a_b` builds the pattern `/a_b/%` in which `_` matches any character, so the
record `/axb/f` — neither equal to `/a_b` nor a descendant — is deleted; and
`LIKE` is ASCII case-insensitive by default, so removing `/a` also deletes
`/A/f`, a case-variant that is not a descendant of `/a` either (both with row
count 1, table emptied). -/
theorem C7_like_wildcards_delete_outside_descendants :
    removePathFromIndex "/a_b" [⟨"/axb/f", "/axb/f", "f", 1, 0, none, "1 B"⟩]
      = ([], 1)
  ∧ ¬ ("/axb/f" = "/a_b" ∨ ("/a_b".data ++ ['/']) <+: "/axb/f".data)
  ∧ removePathFromIndex "/a" [⟨"/A/f", "/A/f", "f", 1, 0, none, "1 B"⟩]
      = ([], 1)
  ∧ ¬ ("/A/f" = "/a" ∨ ("/a".data ++ ['/']) <+: "/A/f".data) := by
  exact ⟨by decide, by decide, by decide, by decide⟩

/-- C7 amended: when the normalized path contains none of the SQL LIKE
wildcards `%` and `_`, `Remove` deletes — in one DELETE inside one
transaction, reporting the number of deleted rows — exactly the records whose
path equals the normalized path byte-for-byte (the SQL `path = ?` disjunct)
or extends the normalized path plus the separator up to ASCII letter case
(the `path LIKE ?` disjunct, case-insensitive by SQLite default): that is the
equal-or-descendant set widened by case-variant descendants.  A path
containing `%` or `_` additionally deletes every record matching it as a
LIKE pattern. -/
theorem C7_remove_deletes_exactly_descendants (normalizedPath : String)
    (filesT : List FileItem)
    (hp : '%' ∉ normalizedPath.data) (hu : '_' ∉ normalizedPath.data) :
    (∀ f, f ∈ (removePathFromIndex normalizedPath filesT).1 ↔
        f ∈ filesT ∧
          ¬ (f.path = normalizedPath ∨
            (normalizedPath.data ++ ['/']).map foldAscii <+: f.path.data.map foldAscii))
  ∧ (removePathFromIndex normalizedPath filesT).2 =
      (filesT.filter (fun f =>
        decide (f.path = normalizedPath ∨
          (normalizedPath.data ++ ['/']).map foldAscii <+: f.path.data.map foldAscii))).length := by
  constructor
  · intro f
    show f ∈ filesT.filter _ ↔ _
    simp only [List.mem_filter, Bool.not_eq_true']
    have hiff := likeMatch_remove_hit_iff normalizedPath f.path hp hu
    constructor
    · rintro ⟨hm, hf⟩
      refine ⟨hm, fun hP => ?_⟩
      rw [hiff.mpr hP] at hf
      cases hf
    · rintro ⟨hm, hP⟩
      refine ⟨hm, ?_⟩
      exact Bool.eq_false_iff.mpr (fun hval => hP (hiff.mp hval))
  · show (filesT.filter _).length = _
    congr 1
    apply List.filter_congr
    intro f _
    have hiff := likeMatch_remove_hit_iff normalizedPath f.path hp hu
    by_cases hP : (f.path = normalizedPath ∨
        (normalizedPath.data ++ ['/']).map foldAscii <+: f.path.data.map foldAscii)
    · rw [hiff.mpr hP, decide_eq_true hP]
    · rw [decide_eq_false hP]
      exact Bool.eq_false_iff.mpr (fun hval => hP (hiff.mp hval))

/-- C7 witness: removing `/a` from a catalog holding `/a`, `/a/x`, the
case-variant `/A/x` and `/b/y` behaves as the amended claim states; applied
to the record `/b/y`, which survives (the first three are deleted). -/
theorem C7_remove_deletes_exactly_descendants_witness :
    (⟨"/b/y", "/b/y", "y", 1, 0, none, "1 B"⟩ : FileItem) ∈
        (removePathFromIndex "/a"
          [⟨"/a", "/a", "", 1, 0, none, "1 B"⟩,
           ⟨"/a/x", "/a/x", "x", 1, 0, none, "1 B"⟩,
           ⟨"/A/x", "/A/x", "x", 1, 0, none, "1 B"⟩,
           ⟨"/b/y", "/b/y", "y", 1, 0, none, "1 B"⟩]).1 := by
  have h := (C7_remove_deletes_exactly_descendants "/a"
      [⟨"/a", "/a", "", 1, 0, none, "1 B"⟩,
       ⟨"/a/x", "/a/x", "x", 1, 0, none, "1 B"⟩,
       ⟨"/A/x", "/A/x", "x", 1, 0, none, "1 B"⟩,
       ⟨"/b/y", "/b/y", "y", 1, 0, none, "1 B"⟩]
      (by decide) (by decide)).1
      ⟨"/b/y", "/b/y", "y", 1, 0, none, "1 B"⟩
  exact h.mpr ⟨by decide, by decide⟩

/- ---------------------------------------------------------------------------
Claim C8.
--------------------------------------------------------------------------- -/

/-- C8 counterexample: the claim states that a failed batched persistence of
computed hashes or confirmed memberships makes `ScanForDuplicates` return the
failure.  The code refutes it: a scan over two unhashed identical files
against a store refusing both transactions still returns the confirmed group
with a nil error, while the hash-update batch is nonempty and both
persistence calls fail. -/
theorem C8_scan_returns_ok_despite_store_failure :
    scanForDuplicatesE ⟨false, false⟩ (fun _ _ => "h")
        (Fs.mk [("/x", [5], 0), ("/y", [5], 0)]) 0 (fun _ _ => 0)
        [⟨"/x", "/x", "", 1, 0, none, "1 B"⟩, ⟨"/y", "/y", "", 1, 0, none, "1 B"⟩]
      = Except.ok [⟨"h", ["/x", "/y"]⟩]
  ∧ (scanForDuplicates (fun _ _ => "h")
        (Fs.mk [("/x", [5], 0), ("/y", [5], 0)]) 0 (fun _ _ => 0)
        [⟨"/x", "/x", "", 1, 0, none, "1 B"⟩, ⟨"/y", "/y", "", 1, 0, none, "1 B"⟩]).2
      = [("/x", "h"), ("/y", "h")]
  ∧ updateHashesInIndex ⟨false, false⟩ [("/x", "h"), ("/y", "h")]
      = Except.error "failed to commit transaction"
  ∧ addDuplicatesToIndex ⟨false, false⟩ ⟨"h", ["/x", "/y"]⟩
      = Except.error "failed to begin transaction" := by
  exact ⟨rfl, rfl, rfl, rfl⟩

/-- C8 amended: batched persistence failures during a scan are logged as
warnings and swallowed — `ScanForDuplicates` returns a nil error no matter
what the durable store does; only the per-stage printing differs. -/
theorem C8_amended_scan_always_ok (oracle : DbOracle)
    (hashFn : Int → Content → String) (fs : Fs) (sampleSize : Nat)
    (rng : String → Nat → Nat) (files : List FileItem) :
    ∃ rs, scanForDuplicatesE oracle hashFn fs sampleSize rng files = Except.ok rs :=
  ⟨_, rfl⟩

/- ---------------------------------------------------------------------------
Claim C9.
--------------------------------------------------------------------------- -/

/-- C9: a file whose identity already exists in the catalog with identical
size and modification time is skipped by `AddFile` and by `AddDirectory`'s
walk — the stored record (hash included) is untouched and no INSERT is issued
for it. -/
theorem C9_add_existing_identical_noop (lib : PathLib) (cfg : Config) (fs : Fs)
    (path : String) (sz mt : Int) (ex : FileItem)
    (hstat : fs.stat path = some (sz, mt))
    (hsz : ex.size = sz) (hmt : ex.modTime = mt) :
    (∀ files, mapLookup files (lib.clean path) = some ex →
        addFile lib cfg fs files path = (files, [], none))
  ∧ (∀ filterStr acc, mapLookup acc.1 (lib.clean path) = some ex →
        addDirStep lib cfg fs filterStr acc path = acc) := by
  constructor
  · intro files hex
    unfold addFile
    rw [hstat]
    by_cases hmin : cfg.minFileSize > 0 ∧ sz < cfg.minFileSize
    · simp [hmin]
    · simp only [hmin, if_false]
      rw [hex]
      simp [hsz, hmt]
  · intro filterStr acc hex
    unfold addDirStep
    rw [hstat]
    by_cases hflt : filterStr ≠ "" ∧ ¬ lib.matchGlob filterStr (lib.base path)
    · simp [hflt]
    · by_cases hmin : cfg.minFileSize > 0 ∧ sz < cfg.minFileSize
      · simp [hflt, hmin]
      · simp only [hflt, hmin, if_false]
        rw [hex]
        simp [hsz, hmt]

/-- C9 witness: a concrete catalog holding `/f` with matching size 1 and
modification time 7 and a cached hash; adding `/f` again changes nothing and
issues no store write. -/
theorem C9_add_existing_identical_noop_witness :
    addFile (PathLib.mk id (fun _ => "") id (fun _ _ => true) (fun _ => ""))
        ⟨0, 0⟩ (Fs.mk [("/f", [9], 7)])
        [("/f", ⟨"/f", "/f", "", 1, 7, some "cafe", "1 B"⟩)] "/f"
      = ([("/f", ⟨"/f", "/f", "", 1, 7, some "cafe", "1 B"⟩)], [], none) :=
  (C9_add_existing_identical_noop
      (PathLib.mk id (fun _ => "") id (fun _ _ => true) (fun _ => ""))
      ⟨0, 0⟩ (Fs.mk [("/f", [9], 7)]) "/f" 1 7
      ⟨"/f", "/f", "", 1, 7, some "cafe", "1 B"⟩ rfl rfl rfl).1
    [("/f", ⟨"/f", "/f", "", 1, 7, some "cafe", "1 B"⟩)] rfl

/- ---------------------------------------------------------------------------
Claim C10.
--------------------------------------------------------------------------- -/

theorem min?_string_iff (l : List String) (a : String) :
    l.min? = some a ↔ a ∈ l ∧ ∀ b ∈ l, a ≤ b := by
  apply List.min?_eq_some_iff
  · exact fun x => le_refl x
  · exact fun x y => min_choice x y
  · exact fun x y z => le_min_iff

theorem joinDupes_guid_inj (t : Tables)
    (hnd : (t.filesT.map (fun f => f.guid)).Nodup) :
    ∀ g1 ∈ joinDupes t, ∀ g2 ∈ joinDupes t, g1.guid = g2.guid → g1 = g2 := by
  have hsub : List.Sublist (joinDupes t) t.filesT := List.filter_sublist t.filesT
  have hndJ : ((joinDupes t).map (fun f => f.guid)).Nodup :=
    (hsub.map (fun f => f.guid)).nodup hnd
  exact fun g1 h1 g2 h2 hg =>
    List.inj_on_of_nodup_map hndJ h1 h2 hg

theorem mem_groupMinGuids_iff (t : Tables)
    (hnd : (t.filesT.map (fun f => f.guid)).Nodup) (f : FileItem)
    (hf : f ∈ joinDupes t) :
    f.guid ∈ groupMinGuids t ↔
      ∀ g ∈ joinDupes t, g.size = f.size → g.hash = f.hash → f.guid ≤ g.guid := by
  have hinj := joinDupes_guid_inj t hnd
  constructor
  · intro hmem
    rcases List.mem_filterMap.mp hmem with ⟨key, hkey, hmin⟩
    rcases (min?_string_iff _ _).mp hmin with ⟨hin, hbound⟩
    rcases List.mem_map.mp hin with ⟨g', hg', hg'eq⟩
    have hg'J : g' ∈ joinDupes t := List.mem_of_mem_filter hg'
    have hfg : g' = f := hinj g' hg'J f hf hg'eq
    subst hfg
    have hcond := List.of_mem_filter hg'
    rw [Bool.and_eq_true, beq_iff_eq, beq_iff_eq] at hcond
    intro g hg hsz hh
    have hgfilter : g ∈ (joinDupes t).filter
        (fun x => x.size == key.1 && x.hash == key.2) := by
      apply List.mem_filter.mpr
      refine ⟨hg, ?_⟩
      rw [Bool.and_eq_true, beq_iff_eq, beq_iff_eq]
      exact ⟨hsz.trans hcond.1, hh.trans hcond.2⟩
    exact hbound g.guid (List.mem_map.mpr ⟨g, hgfilter, rfl⟩)
  · intro hbound
    apply List.mem_filterMap.mpr
    refine ⟨(f.size, f.hash), ?_, ?_⟩
    · exact List.mem_dedup.mpr (List.mem_map.mpr ⟨f, hf, rfl⟩)
    · apply (min?_string_iff _ _).mpr
      constructor
      · apply List.mem_map.mpr
        refine ⟨f, ?_, rfl⟩
        apply List.mem_filter.mpr
        exact ⟨hf, by simp⟩
      · intro b hb
        rcases List.mem_map.mp hb with ⟨g, hgfilter, hgb⟩
        have hgJ : g ∈ joinDupes t := List.mem_of_mem_filter hgfilter
        have hcond := List.of_mem_filter hgfilter
        rw [Bool.and_eq_true, beq_iff_eq, beq_iff_eq] at hcond
        exact hgb ▸ hbound g hgJ hcond.1 hcond.2

/-- C10: within every (size, hash) duplicate group, `GetRestOfDuplicates`
returns exactly the joined rows that are not their group's lexicographically
smallest guid — i.e. it retains the smallest-identity member of each group and
returns every other member — and `MoveDuplicateFilesToDirectory` (DryRun off,
renames succeeding) moves exactly the files so returned. -/
theorem C10_rest_keeps_smallest_guid_only (t : Tables)
    (hnd : (t.filesT.map (fun f => f.guid)).Nodup) :
    (∀ f, f ∈ GetRestOfDuplicates t ↔
        f ∈ joinDupes t ∧ ∃ g ∈ joinDupes t,
          g.size = f.size ∧ g.hash = f.hash ∧ g.guid < f.guid)
  ∧ moveDuplicateFilesToDirectory t = (GetRestOfDuplicates t).map (fun f => f.path) := by
  constructor
  · intro f
    show f ∈ (joinDupes t).filter _ ↔ _
    rw [List.mem_filter]
    constructor
    · rintro ⟨hfJ, hnotmin⟩
      rw [Bool.not_eq_true'] at hnotmin
      have hnotmin' : f.guid ∉ groupMinGuids t := by
        simpa using hnotmin
      refine ⟨hfJ, ?_⟩
      by_contra hnone
      push_neg at hnone
      apply hnotmin'
      apply (mem_groupMinGuids_iff t hnd f hfJ).mpr
      intro g hg hsz hh
      exact not_lt.mp (hnone g hg hsz hh)
    · rintro ⟨hfJ, g, hg, hsz, hh, hlt⟩
      refine ⟨hfJ, ?_⟩
      rw [Bool.not_eq_true']
      have : f.guid ∉ groupMinGuids t := by
        intro hmin
        have hle := (mem_groupMinGuids_iff t hnd f hfJ).mp hmin g hg hsz hh
        exact absurd hlt (not_lt.mpr hle)
      simpa using this
  · rfl

/-- C10 witness: two records `a` and `b` with equal size and hash, both marked
duplicates; the rest-query returns `b` (retaining the smaller guid `a`). -/
theorem C10_rest_keeps_smallest_guid_only_witness :
    (⟨"b", "/b", "", 1, 0, some "h", "1 B"⟩ : FileItem) ∈
      GetRestOfDuplicates
        (Tables.mk
          [⟨"a", "/a", "", 1, 0, some "h", "1 B"⟩,
           ⟨"b", "/b", "", 1, 0, some "h", "1 B"⟩]
          [⟨"a", 3⟩, ⟨"b", 3⟩]) := by
  have h := (C10_rest_keeps_smallest_guid_only
      (Tables.mk
        [⟨"a", "/a", "", 1, 0, some "h", "1 B"⟩,
         ⟨"b", "/b", "", 1, 0, some "h", "1 B"⟩]
        [⟨"a", 3⟩, ⟨"b", 3⟩]) (by decide)).1
      ⟨"b", "/b", "", 1, 0, some "h", "1 B"⟩
  exact h.mpr ⟨by decide,
    ⟨"a", "/a", "", 1, 0, some "h", "1 B"⟩, by decide, rfl, rfl, by
      show ("a" : String) < "b"
      rw [String.lt_iff_toList_lt]
      decide⟩

end DupeFiles
